import Mathlib

/-!
# BigNumber: a shallow embedding of `BigNumber.cpp`

The C++ class `BigNumber` stores a decimal magnitude as a `std::vector<int>`
(least significant digit first) together with a sign flag.  Every member
function is translated below into a Lean function of the same name.

Conventions of the embedding:

* `std::vector<int>` is `List Int`, index `0` being the head of the list;
* `std::string` is `List Char`;
* C++ `/` and `%` on `int` truncate toward zero: `Int.tdiv` and `Int.tmod`;
* a `for` loop over an index range is a structural recursion over the
  elements it visits; a `while` loop whose number of iterations depends on
  the data is a recursion on an explicit iteration budget, and returns
  `none` when the budget is used up before the loop condition turns false;
* a constructor that can throw returns `Except String`.
-/

namespace BigNumberLib

/-- The class `BigNumber`: its two data members. -/
structure BigNumber where
  number_digits : List Int
  isNegative : Bool
deriving DecidableEq, Repr

namespace BigNumber

/-! ## Construction and normalisation -/

/-- The default constructor `BigNumber()`: the single digit `0`, not negative. -/
def new : BigNumber := ⟨[0], false⟩

/-- The loop `while (size() > 1 && back() == 0) pop_back();` of
`trimLeadingZeros`, run on the digit list written most significant digit
first (so that `back()` is the head of the list). -/
def popZeros : List Int → List Int
  | [] => []
  | [d] => [d]
  | d :: e :: rest => if d = 0 then popZeros (e :: rest) else d :: e :: rest

/-- The member function `trimLeadingZeros`. -/
def trimLeadingZeros (x : BigNumber) : BigNumber :=
  let ds := (popZeros x.number_digits.reverse).reverse
  if ds.length = 1 ∧ ds.head? = some 0 then ⟨ds, false⟩ else ⟨ds, x.isNegative⟩

/-- The member function `absolute`. -/
def absolute (x : BigNumber) : BigNumber := ⟨x.number_digits, false⟩

/-- The C library function `isdigit` on the characters `std::string` holds. -/
def isdigit (c : Char) : Bool := decide (48 ≤ c.toNat) && decide (c.toNat ≤ 57)

/-- The reading loop of the string constructor: the characters are visited
from the last one back to position `start`; each must be a digit and is
pushed as `c - 48`. -/
def readDigits : List Char → List Int → Except String (List Int)
  | [], acc => Except.ok acc
  | c :: cs, acc =>
    if isdigit c = false then Except.error "Invalid character in input string"
    else readDigits cs (acc ++ [(c.toNat : Int) - 48])

/-- The constructor `BigNumber(const std::string &)`. -/
def ofString (number : List Char) : Except String BigNumber :=
  if number = [] then Except.ok ⟨[0], false⟩
  else
    let isNeg : Bool := decide (number.head? = some '-')
    let start : Nat :=
      if number.head? = some '-' then 1 else if number.head? = some '+' then 1 else 0
    match readDigits (number.drop start).reverse [] with
    | Except.error e => Except.error e
    | Except.ok ds => Except.ok (trimLeadingZeros ⟨ds, isNeg⟩)

/-- The function `std::to_string(int)`: decimal text of a machine integer. -/
def intToString (d : Int) : List Char :=
  if d < 0 then '-' :: (Nat.toDigits 10 d.natAbs) else Nat.toDigits 10 d.natAbs

/-- The member function `to_string`. -/
def to_string (x : BigNumber) : List Char :=
  if x.number_digits.length = 1 ∧ x.number_digits.head? = some 0 then ['0']
  else
    (if x.isNegative then ['-'] else []) ++
      (x.number_digits.reverse.map intToString).flatten

/-! ## Comparison -/

/-- The member `operator==`. -/
def eq (a b : BigNumber) : Bool :=
  decide (a.number_digits = b.number_digits) && decide (a.isNegative = b.isNegative)

/-- The member `operator!=`. -/
def ne (a b : BigNumber) : Bool := !(eq a b)

/-- The digit loop of `operator<`: both digit lists have the same length and
are given most significant digit first; the first position where they
differ decides. -/
def ltDigits (neg : Bool) : List Int → List Int → Bool
  | x :: xs, y :: ys =>
    if x ≠ y then (if neg then decide (x > y) else decide (x < y)) else ltDigits neg xs ys
  | _, _ => false

/-- The member `operator<`. -/
def lt (a b : BigNumber) : Bool :=
  if a.isNegative ≠ b.isNegative then a.isNegative
  else if a.number_digits.length ≠ b.number_digits.length then
    (if a.isNegative then decide (a.number_digits.length > b.number_digits.length)
     else decide (a.number_digits.length < b.number_digits.length))
  else ltDigits a.isNegative a.number_digits.reverse b.number_digits.reverse

/-- The member `operator>`. -/
def gt (a b : BigNumber) : Bool := lt b a

/-- The member `operator<=`. -/
def le (a b : BigNumber) : Bool := !(gt a b)

/-- The member `operator>=`. -/
def ge (a b : BigNumber) : Bool := !(lt a b)

/-! ## Addition and subtraction -/

/-- The loop `for (i = 0; i < max_size || carry != 0; ++i)` of
`addAbsoluteValues`.  The two lists are the digits of `a` and of `b` from
index `i` on, so `i < a.size()` reads "the first list is not empty" and
`i < max_size` reads "one of the two lists is not empty"; the result is the
list of digits pushed from iteration `i` on. -/
def addLoop : Nat → List Int → List Int → Int → Option (List Int)
  | 0, _, _, _ => none
  | fuel + 1, as, bs, carry =>
    if as ≠ [] ∨ bs ≠ [] ∨ carry ≠ 0 then
      let digit_sum := carry
      let digit_sum := match as with
        | [] => digit_sum
        | x :: _ => digit_sum + x
      let digit_sum := match bs with
        | [] => digit_sum
        | y :: _ => digit_sum + y
      (addLoop fuel as.tail bs.tail (Int.tdiv digit_sum 10)).map
        (fun rest => Int.tmod digit_sum 10 :: rest)
    else some []

/-- The helper `addAbsoluteValues`.  The iteration budget of its loop is
`max_size + 11`: once `i` has reached `max_size` the loop only goes on while
the `int` variable `carry` is not zero, and `carry` is divided by ten in every
such iteration. -/
def addAbsoluteValues (a b : BigNumber) : Option BigNumber :=
  let max_size := max a.number_digits.length b.number_digits.length
  (addLoop (max_size + 11) a.number_digits b.number_digits 0).map
    (fun ds => trimLeadingZeros ⟨ds, false⟩)

/-- The loop `for (i = 0; i < a.size(); ++i)` of `subtractAbsoluteValues`:
the first list holds the digits of `a` from index `i` on, the second those
of `b`. -/
def subLoop : List Int → List Int → Int → List Int
  | [], _, _ => []
  | x :: as, bs, borrow =>
    let digit_diff := x - borrow
    let digit_diff := match bs with
      | [] => digit_diff
      | y :: _ => digit_diff - y
    if digit_diff < 0 then (digit_diff + 10) :: subLoop as bs.tail 1
    else digit_diff :: subLoop as bs.tail 0

/-- The helper `subtractAbsoluteValues`. -/
def subtractAbsoluteValues (a b : BigNumber) : BigNumber :=
  trimLeadingZeros ⟨subLoop a.number_digits b.number_digits 0, false⟩

/-- The member `operator+`. -/
def add (a b : BigNumber) : Option BigNumber :=
  if a.isNegative = b.isNegative then
    (addAbsoluteValues a b).map (fun result => ⟨result.number_digits, a.isNegative⟩)
  else if ge (absolute a) (absolute b) = true then
    some ⟨(subtractAbsoluteValues a b).number_digits, a.isNegative⟩
  else
    some ⟨(subtractAbsoluteValues b a).number_digits, b.isNegative⟩

/-- The binary member `operator-`. -/
def sub (a b : BigNumber) : Option BigNumber :=
  let negated_other : BigNumber := ⟨b.number_digits, !b.isNegative⟩
  add a negated_other

/-- The unary member `operator-`. -/
def neg (a : BigNumber) : BigNumber := ⟨a.number_digits, !a.isNegative⟩

/-! ## Multiplication -/

/-- The call `std::vector<int>::resize(n, v)`. -/
def resize (ds : List Int) (n : Nat) (v : Int) : List Int :=
  ds.take n ++ List.replicate (n - ds.length) v

/-- The loop `while (product > 0)` of `operator*`, on the digit vector of
`result`. -/
def carryLoop : Nat → Int → Nat → List Int → Option (List Int)
  | 0, _, _, _ => none
  | fuel + 1, product, position, digits =>
    if product > 0 then
      let digits := if position = digits.length then digits ++ [0] else digits
      let product := product + digits.getD position 0
      carryLoop fuel (Int.tdiv product 10) (position + 1)
        (digits.set position (Int.tmod product 10))
    else some digits

/-- The loop `for (j = 0; j < other_number.size(); ++j)` of `operator*` for a
fixed `i`, where `x` is `number_digits[i]` and the list holds the digits of
`other_number` from index `j` on.  The budget of the carry loop is the
distance from `position` to the end of the vector plus eleven: past the end
every iteration divides the `int` variable `product` by ten. -/
def mulInner (x : Int) (i : Nat) : List Int → Nat → List Int → Option (List Int)
  | [], _, digits => some digits
  | y :: ys, j, digits =>
    (carryLoop (digits.length - (i + j) + 11) (x * y) (i + j) digits).bind
      (fun digits => mulInner x i ys (j + 1) digits)

/-- The loop `for (i = 0; i < number_digits.size(); ++i)` of `operator*`; the
list `xs` holds the digits of the left operand from index `i` on. -/
def mulOuter (bs : List Int) : List Int → Nat → List Int → Option (List Int)
  | [], _, digits => some digits
  | x :: xs, i, digits =>
    (mulInner x i bs 0 digits).bind (fun digits => mulOuter bs xs (i + 1) digits)

/-- The member `operator*`. -/
def mul (a b : BigNumber) : Option BigNumber :=
  let digits0 := resize new.number_digits (a.number_digits.length + b.number_digits.length) 0
  (mulOuter b.number_digits a.number_digits 0 digits0).map
    (fun digits => trimLeadingZeros ⟨digits, a.isNegative != b.isNegative⟩)

/-! ## Construction from a machine integer -/

/-- Reduction of an integer to the range of `long long` (two's complement). -/
def wrap64 (n : Int) : Int := (n + 2 ^ 63) % 2 ^ 64 - 2 ^ 63

/-- The call `std::abs(long long)`, the result taken in 64-bit arithmetic. -/
def llabs (n : Int) : Int := wrap64 (if n < 0 then -n else n)

/-- The loop `while (num > 0)` of the constructor from `long long`; the
result is the list of digits pushed. -/
def digitLoop : Nat → Int → Option (List Int)
  | 0, _ => none
  | fuel + 1, num =>
    if num > 0 then
      (digitLoop fuel (Int.tdiv num 10)).map (fun rest => Int.tmod num 10 :: rest)
    else some []

/-- The constructor `BigNumber(long long)`.  A `long long` has at most 19
decimal digits, which bounds the iterations of the loop. -/
def ofLongLong (num : Int) : Option BigNumber :=
  if num = 0 then some ⟨[0], false⟩
  else (digitLoop 20 (llabs num)).map (fun ds => ⟨ds, decide (num < 0)⟩)

/-! ## Division -/

/-- The binary search `while (left <= right)` of `divide` for the quotient
digit; `b` is `other_number`.  The interval from `left` to `right` starts as
`0 .. 10` and loses at least one element in every iteration. -/
def searchLoop (b remainder : BigNumber) : Nat → Int → Int → Int → Option Int
  | 0, _, _, _ => none
  | fuel + 1, left, right, quotientDigit =>
    if left ≤ right then
      let mid := Int.tdiv (left + right) 2
      (ofLongLong mid).bind fun m =>
      (mul (absolute b) m).bind fun candidate =>
      if le candidate (absolute remainder) = true then searchLoop b remainder fuel (mid + 1) right mid
      else searchLoop b remainder fuel left (mid - 1) quotientDigit
    else some quotientDigit

/-- The loop `for (i = size() - 1; i >= 0; --i)` of `divide`; the list holds
the digits of the dividend still to be brought down, most significant
first. -/
def divLoop (b : BigNumber) : List Int → BigNumber → BigNumber → Option (BigNumber × BigNumber)
  | [], result, remainder => some (result, remainder)
  | d :: ds, result, remainder =>
    let remainder := trimLeadingZeros ⟨d :: remainder.number_digits, remainder.isNegative⟩
    (searchLoop b remainder 12 0 10 0).bind fun quotientDigit =>
    (ofLongLong quotientDigit).bind fun qd =>
    (mul (absolute b) qd).bind fun product =>
    (sub remainder product).bind fun remainder =>
    divLoop b ds ⟨quotientDigit :: result.number_digits, result.isNegative⟩ remainder

/-- The member function `divide`.  When the divisor equals `BigNumber("0")` the
source prints the line "Does not exist" and returns the pair of zeros. -/
def divide (a b : BigNumber) : Option (BigNumber × BigNumber) :=
  (ofString ['0']).toOption.bind fun zero =>
  if eq b zero = true then some (zero, zero)
  else
    let result : BigNumber :=
      ⟨resize new.number_digits a.number_digits.length 0, a.isNegative != b.isNegative⟩
    let remainder : BigNumber := ⟨new.number_digits, a.isNegative⟩
    (divLoop b a.number_digits.reverse result remainder).map
      (fun p => (trimLeadingZeros p.1, trimLeadingZeros p.2))

/-- The member `operator%`. -/
def mod (a b : BigNumber) : Option BigNumber := (divide a b).map (fun p => p.2)

/-- The member `operator/`. -/
def div (a b : BigNumber) : Option BigNumber := (divide a b).map (fun p => p.1)

/-! ## The value denoted -/

/-- The magnitude a digit list denotes: the sum of `digit[i] * 10 ^ i`. -/
def digitsVal : List Int → Int
  | [] => 0
  | d :: ds => d + 10 * digitsVal ds

/-- The signed integer a `BigNumber` denotes. -/
def value (x : BigNumber) : Int :=
  if x.isNegative = true then - digitsVal x.number_digits else digitsVal x.number_digits

/-- Every digit of the list is in `0..9`. -/
def InRange (ds : List Int) : Prop := ∀ d ∈ ds, 0 ≤ d ∧ d ≤ 9

instance (ds : List Int) : Decidable (InRange ds) := by
  unfold InRange; infer_instance

/-- The digit list is not empty, every digit is in `0..9`, and the most
significant digit is not zero unless the list is the single digit `0`. -/
def DigitsOK (ds : List Int) : Prop :=
  ds ≠ [] ∧ InRange ds ∧ (ds.getLast? = some 0 → ds = [0])

instance (ds : List Int) : Decidable (DigitsOK ds) := by
  unfold DigitsOK; infer_instance

/-- The data-model invariants: well-formed digits, and zero is not negative. -/
def WellFormed (x : BigNumber) : Prop :=
  DigitsOK x.number_digits ∧ (x.number_digits = [0] → x.isNegative = false)

instance (x : BigNumber) : Decidable (WellFormed x) := by
  unfold WellFormed; infer_instance

/-- The ten decimal digit characters. -/
def decimalDigits : List Char := ['0', '1', '2', '3', '4', '5', '6', '7', '8', '9']

/-- The characters after the optional single leading sign. -/
def numericPortion : List Char → List Char
  | '-' :: rest => rest
  | '+' :: rest => rest
  | s => s

/-- The number a run of decimal digit characters denotes, the most
significant digit written first. -/
def textValue (ds : List Char) : Int :=
  ds.foldl (fun acc c => 10 * acc + ((c.toNat : Int) - 48)) 0

/-- The integer denoted by an optional sign followed by a run of digits. -/
def signedValue (sign body : List Char) : Int :=
  if sign = ['-'] then - textValue body else textValue body

/-- The text `t` is the canonical decimal text of the integer `n`: a minus
sign exactly when `n` is negative, then a non-empty run of decimal digits
that denotes the absolute value of `n` and has no leading zero unless it is
the single digit zero. -/
def IsCanonicalText (t : List Char) (n : Int) : Prop :=
  ∃ ds : List Char, ds ≠ [] ∧ (∀ c ∈ ds, c ∈ decimalDigits) ∧
    (ds.head? = some '0' → ds = ['0']) ∧ textValue ds = |n| ∧
    t = (if n < 0 then ['-'] else []) ++ ds

/-- The character of a decimal digit. -/
def digitChar (d : Int) : Char := Char.ofNat (48 + d.toNat)

/-! ## Modular operations -/

/-- The member function `modAddition`. -/
def modAddition (a other_number modulus : BigNumber) : Option BigNumber :=
  (add a other_number).bind fun result => mod result modulus

/-- The member function `modMultiplication`. -/
def modMultiplication (a other_number modulus : BigNumber) : Option BigNumber :=
  (mul a other_number).bind fun result => mod result modulus

/-- The loop `while (a > 1)` of `modInverse` followed by the final
adjustment of `x1`; `m0` is the modulus the function was called with. -/
def modInverseLoop (m0 : BigNumber) : Nat → BigNumber → BigNumber → BigNumber → BigNumber →
    Option BigNumber
  | 0, _, _, _, _ => none
  | fuel + 1, a, m, x0, x1 =>
    (ofLongLong 1).bind fun one =>
    if gt a one = true then
      (div a m).bind fun q =>
      let t := m
      (mod a m).bind fun m =>
      let a := t
      let t := x0
      (mul q x0).bind fun qx0 =>
      (sub x1 qx0).bind fun x0 =>
      let x1 := t
      modInverseLoop m0 fuel a m x0 x1
    else
      (ofLongLong 0).bind fun zero =>
      if lt x1 zero = true then add x1 m0 else some x1

/-- The member function `modInverse`, with the iteration budget of its loop
as a parameter. -/
def modInverse (fuel : Nat) (a modulus : BigNumber) : Option BigNumber :=
  let m := modulus
  let m0 := m
  (ofLongLong 0).bind fun x0 =>
  (ofLongLong 1).bind fun x1 =>
  (ofLongLong 1).bind fun one =>
  if eq m one = true then ofLongLong 0
  else modInverseLoop m0 fuel a m x0 x1

/-- The decimal text of the test vector `num1` of `main`. -/
def num1Text : List Char :=
  "7411983660145561438669578801503455163517312471829001959053178951383381181774990719242089448703004658285326780366787478508242288148487675488967829478156097".toList

/-- The decimal text of the test modulus `mod_512` of `main`, the number `2^512`. -/
def mod512Text : List Char :=
  "13407807929942597099574024998205846127479365820592393377723561443721764030073546976801874298166903427690031858186486050853753882811946569946433649006084096".toList

/-! ## The multiplication loops with their run-time observations -/

/-- The loop `while (product > 0)` of `operator*`, as `carryLoop`, together
with a flag that records whether at every iteration the write position was
inside the vector (the `push_back` branch was not taken), `product` was at
most `90` on entry and after the addition, and the digit stored was in
`0..9`. -/
def carryLoopObserved : Nat → Int → Nat → List Int → Option (List Int × Bool)
  | 0, _, _, _ => none
  | fuel + 1, product, position, digits =>
    if product > 0 then
      let inside := decide (position < digits.length)
      let entry := decide (product ≤ 90)
      let digits := if position = digits.length then digits ++ [0] else digits
      let product := product + digits.getD position 0
      let stored := Int.tmod product 10
      let ok := inside && entry && decide (product ≤ 90) && decide (0 ≤ stored ∧ stored ≤ 9)
      (carryLoopObserved fuel (Int.tdiv product 10) (position + 1)
        (digits.set position stored)).map (fun r => (r.1, ok && r.2))
    else some (digits, true)

/-- The loop over `j` of `operator*`, as `mulInner`, with the flags of its
carry loops combined. -/
def mulInnerObserved (x : Int) (i : Nat) :
    List Int → Nat → List Int → Option (List Int × Bool)
  | [], _, digits => some (digits, true)
  | y :: ys, j, digits =>
    (carryLoopObserved (digits.length - (i + j) + 11) (x * y) (i + j) digits).bind
      (fun r => (mulInnerObserved x i ys (j + 1) r.1).map (fun r2 => (r2.1, r.2 && r2.2)))

/-- The loop over `i` of `operator*`, as `mulOuter`, with the flags of its
inner loops combined. -/
def mulOuterObserved (bs : List Int) : List Int → Nat → List Int → Option (List Int × Bool)
  | [], _, digits => some (digits, true)
  | x :: xs, i, digits =>
    (mulInnerObserved x i bs 0 digits).bind
      (fun r => (mulOuterObserved bs xs (i + 1) r.1).map (fun r2 => (r2.1, r.2 && r2.2)))

/-- The digit vector of `result` in `operator*` before `trimLeadingZeros`,
with the flag of all the carry loops run. -/
def mulObserved (a b : BigNumber) : Option (List Int × Bool) :=
  mulOuterObserved b.number_digits a.number_digits 0
    (resize new.number_digits (a.number_digits.length + b.number_digits.length) 0)

/-! ## Digit lists and their values -/

theorem digitsVal_append (xs ys : List Int) :
    digitsVal (xs ++ ys) = digitsVal xs + 10 ^ xs.length * digitsVal ys := by
  induction xs with
  | nil => simp [digitsVal]
  | cons x xs ih => simp [digitsVal, ih, pow_succ]; ring

theorem digitsVal_nonneg {ds : List Int} (h : InRange ds) : 0 ≤ digitsVal ds := by
  induction ds with
  | nil => simp [digitsVal]
  | cons x xs ih =>
    have hx := h x (by simp)
    have := ih (fun d hd => h d (by simp [hd]))
    simp [digitsVal]; omega

theorem digitsVal_lt_pow {ds : List Int} (h : InRange ds) : digitsVal ds < 10 ^ ds.length := by
  induction ds with
  | nil => simp [digitsVal]
  | cons x xs ih =>
    have hx := h x (by simp)
    have := ih (fun d hd => h d (by simp [hd]))
    simp [digitsVal, pow_succ]; omega

theorem popZeros_ne_nil {l : List Int} (h : l ≠ []) : popZeros l ≠ [] := by
  induction l using popZeros.induct with
  | case1 => exact absurd rfl h
  | case2 d => simp [popZeros]
  | case3 e rest ih => simp [popZeros]; exact ih (by simp)
  | case4 d e rest hd => simp [popZeros, hd]

theorem popZeros_val (l : List Int) :
    digitsVal (popZeros l).reverse = digitsVal l.reverse := by
  induction l using popZeros.induct with
  | case1 => rfl
  | case2 d => rfl
  | case3 e rest ih =>
    rw [popZeros, if_pos rfl, ih]
    simp [digitsVal_append, digitsVal]
  | case4 d e rest hd => rw [popZeros, if_neg hd]

theorem popZeros_mem {l : List Int} {d : Int} (h : d ∈ popZeros l) : d ∈ l := by
  induction l using popZeros.induct with
  | case1 => exact h
  | case2 d => exact h
  | case3 e rest ih =>
    rw [popZeros, if_pos rfl] at h
    exact List.mem_cons_of_mem _ (ih h)
  | case4 d e rest hd => rwa [popZeros, if_neg hd] at h

theorem popZeros_head {l : List Int} (h : (popZeros l).head? = some 0) : popZeros l = [0] := by
  induction l using popZeros.induct with
  | case1 => simp [popZeros] at h
  | case2 d => simp [popZeros] at h ⊢; exact h
  | case3 e rest ih =>
    rw [popZeros, if_pos rfl] at h ⊢
    exact ih h
  | case4 d e rest hd =>
    rw [popZeros, if_neg hd] at h
    simp at h; exact absurd h hd

theorem popZeros_length_le (l : List Int) : (popZeros l).length ≤ l.length := by
  induction l using popZeros.induct with
  | case1 => simp [popZeros]
  | case2 d => simp [popZeros]
  | case3 e rest ih =>
    rw [popZeros, if_pos rfl]; simp at ih ⊢; omega
  | case4 d e rest hd => rw [popZeros, if_neg hd]

theorem popZeros_id {l : List Int} (h : l.head? = some 0 → l = [0]) : popZeros l = l := by
  match l, h with
  | [], _ => rfl
  | [d], _ => rfl
  | d :: e :: rest, h =>
    have hd : d ≠ 0 := by
      intro h0; subst h0; simpa using h rfl
    rw [popZeros, if_neg hd]

theorem trim_digits (x : BigNumber) :
    (trimLeadingZeros x).number_digits = (popZeros x.number_digits.reverse).reverse := by
  unfold trimLeadingZeros
  simp only []
  split <;> rfl

theorem single_zero_iff (ds : List Int) : (ds.length = 1 ∧ ds.head? = some 0) ↔ ds = [0] := by
  constructor
  · rintro ⟨h1, h2⟩
    match ds, h1, h2 with
    | [d], _, h2 => simpa using h2
  · rintro rfl; simp

theorem trim_sign (x : BigNumber) :
    (trimLeadingZeros x).isNegative =
      if (trimLeadingZeros x).number_digits = [0] then false else x.isNegative := by
  rw [trim_digits]
  unfold trimLeadingZeros
  simp only [single_zero_iff]
  split <;> rfl

theorem value_trim (x : BigNumber) : value (trimLeadingZeros x) = value x := by
  have hd := trim_digits x
  have hs := trim_sign x
  have hv : digitsVal (trimLeadingZeros x).number_digits = digitsVal x.number_digits := by
    rw [hd, popZeros_val, List.reverse_reverse]
  unfold value
  rw [hs, hv]
  by_cases h0 : (trimLeadingZeros x).number_digits = [0]
  · have : digitsVal x.number_digits = 0 := by rw [← hv, h0]; rfl
    simp [h0, this]
  · simp [h0]

theorem digitsOK_trim {ds : List Int} (hne : ds ≠ []) (hr : InRange ds) :
    DigitsOK (popZeros ds.reverse).reverse := by
  refine ⟨?_, ?_, ?_⟩
  · simpa using popZeros_ne_nil (l := ds.reverse) (by simpa using hne)
  · intro d hd
    have := popZeros_mem (List.mem_reverse.mp hd)
    exact hr d (List.mem_reverse.mp this)
  · intro h
    rw [List.getLast?_reverse] at h
    rw [popZeros_head h]; rfl

theorem wellFormed_trim {x : BigNumber} (hne : x.number_digits ≠ []) (hr : InRange x.number_digits) :
    WellFormed (trimLeadingZeros x) := by
  refine ⟨?_, ?_⟩
  · rw [trim_digits]; exact digitsOK_trim hne hr
  · intro h; rw [trim_sign, if_pos h]

theorem trimDigits_id {ds : List Int} (h : DigitsOK ds) : (popZeros ds.reverse).reverse = ds := by
  rw [popZeros_id, List.reverse_reverse]
  intro h0
  rw [List.head?_reverse] at h0
  rw [h.2.2 h0]; rfl

theorem trim_id {x : BigNumber} (h : WellFormed x) : trimLeadingZeros x = x := by
  have hd : (trimLeadingZeros x).number_digits = x.number_digits := by
    rw [trim_digits, trimDigits_id h.1]
  have hs := trim_sign x
  rw [hd] at hs
  have : (trimLeadingZeros x).isNegative = x.isNegative := by
    rw [hs]; split
    · next h0 => exact (h.2 h0).symm
    · rfl
  cases x; cases hx : trimLeadingZeros _; simp_all

theorem DigitsOK.inRange {ds : List Int} (h : DigitsOK ds) : InRange ds := h.2.1

theorem digitsVal_ge_pow {ds : List Int} (h : DigitsOK ds) (h0 : ds ≠ [0]) :
    10 ^ (ds.length - 1) ≤ digitsVal ds := by
  obtain ⟨hne, hr, hl⟩ := h
  rcases List.eq_nil_or_concat ds with h | ⟨init, l, rfl⟩
  · exact absurd h hne
  · simp only [List.concat_eq_append] at *
    have hl0 : l ≠ 0 := by
      intro hz; subst hz
      exact h0 (hl (by simp))
    have hlr := hr l (by simp)
    have hi : InRange init := fun d hd => hr d (by simp [hd])
    have := digitsVal_nonneg hi
    rw [digitsVal_append]
    simp only [List.length_append, List.length_singleton, Nat.add_sub_cancel, digitsVal, mul_zero, add_zero]
    have hp : (0 : Int) < 10 ^ init.length := by positivity
    have : (10 : Int) ^ init.length * 1 ≤ 10 ^ init.length * l := by
      apply mul_le_mul_of_nonneg_left _ (le_of_lt hp); omega
    omega

theorem digitsVal_pos {ds : List Int} (h : DigitsOK ds) (h0 : ds ≠ [0]) : 0 < digitsVal ds := by
  have := digitsVal_ge_pow h h0
  have hp : (0 : Int) < 10 ^ (ds.length - 1) := by positivity
  omega

theorem digitsVal_eq_zero {ds : List Int} (h : DigitsOK ds) (h0 : digitsVal ds = 0) : ds = [0] := by
  by_contra hne
  have := digitsVal_pos h hne
  omega

theorem digitsVal_lt_of_length_lt {as bs : List Int} (hne : as ≠ []) (ha : InRange as)
    (hb : DigitsOK bs) (hlen : as.length < bs.length) : digitsVal as < digitsVal bs := by
  have h1 := digitsVal_lt_pow ha
  have hb0 : bs ≠ [0] := by
    rintro rfl
    simp at hlen
    exact hne hlen
  have h2 := digitsVal_ge_pow hb hb0
  have h3 : (10 : Int) ^ as.length ≤ 10 ^ (bs.length - 1) :=
    pow_le_pow_right₀ (by norm_num) (by omega)
  omega

theorem ltDigits_spec (neg : Bool) : ∀ (xs ys : List Int), xs.length = ys.length →
    InRange xs → InRange ys →
    ltDigits neg xs ys =
      if neg then decide (digitsVal ys.reverse < digitsVal xs.reverse)
      else decide (digitsVal xs.reverse < digitsVal ys.reverse) := by
  intro xs
  induction xs with
  | nil =>
    intro ys hl _ _
    have : ys = [] := by simpa using hl.symm
    subst this
    cases neg <;> simp [ltDigits, digitsVal]
  | cons x xs ih =>
    intro ys hl hx hy
    match ys, hl, hy with
    | y :: ys, hl, hy =>
      have hl2 : xs.length = ys.length := by simpa using hl
      have hxr : InRange xs := fun d hd => hx d (by simp [hd])
      have hyr : InRange ys := fun d hd => hy d (by simp [hd])
      have hxr2 : InRange xs.reverse := fun d hd => hxr d (by simpa using hd)
      have hyr2 : InRange ys.reverse := fun d hd => hyr d (by simpa using hd)
      have b1 := digitsVal_lt_pow hxr2
      have b2 := digitsVal_lt_pow hyr2
      have n1 := digitsVal_nonneg hxr2
      have n2 := digitsVal_nonneg hyr2
      simp only [List.length_reverse] at b1 b2
      rw [← hl2] at b2
      have hp : (0 : Int) < 10 ^ xs.length := by positivity
      simp only [ltDigits, List.reverse_cons, digitsVal_append, List.length_reverse, digitsVal,
        mul_zero, add_zero]
      rw [← hl2]
      by_cases hxy : x = y
      · subst hxy
        simp only [ne_eq, not_true_eq_false, if_false]
        rw [ih ys hl2 hxr hyr]
        cases neg <;> simp
      · simp only [ne_eq, hxy, not_false_eq_true, if_true]
        rcases lt_or_gt_of_ne hxy with hlt | hgt
        · have : (10 : Int) ^ xs.length * (x + 1) ≤ 10 ^ xs.length * y :=
            mul_le_mul_of_nonneg_left (by omega) (le_of_lt hp)
          rw [mul_add, mul_one] at this
          cases neg <;> simp <;> omega
        · have : (10 : Int) ^ xs.length * (y + 1) ≤ 10 ^ xs.length * x :=
            mul_le_mul_of_nonneg_left (by omega) (le_of_lt hp)
          rw [mul_add, mul_one] at this
          cases neg <;> simp <;> omega

/-! ## Comparison -/

theorem value_of_neg {x : BigNumber} (h : x.isNegative = true) :
    value x = - digitsVal x.number_digits := by simp [value, h]

theorem value_of_nonneg {x : BigNumber} (h : x.isNegative = false) :
    value x = digitsVal x.number_digits := by simp [value, h]

theorem WellFormed.digits_pos {x : BigNumber} (h : WellFormed x) (hn : x.isNegative = true) :
    0 < digitsVal x.number_digits := by
  apply digitsVal_pos h.1
  intro h0
  have := h.2 h0
  rw [hn] at this
  exact Bool.noConfusion this

theorem lt_magnitude {as bs : List Int} (ha : DigitsOK as) (hb : DigitsOK bs) (neg : Bool) :
    (if as.length ≠ bs.length then
      (if neg then decide (as.length > bs.length) else decide (as.length < bs.length))
     else ltDigits neg as.reverse bs.reverse) =
    if neg then decide (digitsVal bs < digitsVal as) else decide (digitsVal as < digitsVal bs) := by
  by_cases hl : as.length = bs.length
  · rw [if_neg (by simpa using hl)]
    rw [ltDigits_spec neg as.reverse bs.reverse (by simpa using hl)
      (fun d hd => ha.2.1 d (by simpa using hd)) (fun d hd => hb.2.1 d (by simpa using hd))]
    simp
  · rw [if_pos hl]
    rcases Nat.lt_or_gt_of_ne hl with h | h
    · have := digitsVal_lt_of_length_lt ha.1 ha.2.1 hb h
      cases neg <;> simp <;> omega
    · have := digitsVal_lt_of_length_lt hb.1 hb.2.1 ha h
      cases neg <;> simp <;> omega

theorem lt_spec {a b : BigNumber} (ha : DigitsOK a.number_digits) (hb : DigitsOK b.number_digits)
    (hs : a.isNegative = b.isNegative) :
    lt a b = if a.isNegative then decide (digitsVal b.number_digits < digitsVal a.number_digits)
      else decide (digitsVal a.number_digits < digitsVal b.number_digits) := by
  unfold lt
  rw [if_neg (by simpa using hs)]
  exact lt_magnitude ha hb a.isNegative

theorem lt_iff {a b : BigNumber} (ha : WellFormed a) (hb : WellFormed b) :
    lt a b = true ↔ value a < value b := by
  by_cases hs : a.isNegative = b.isNegative
  · rw [lt_spec ha.1 hb.1 hs]
    cases hsa : a.isNegative
    · rw [value_of_nonneg hsa, value_of_nonneg (hs ▸ hsa)]; simp
    · rw [value_of_neg hsa, value_of_neg (hs ▸ hsa)]; simp
  · unfold lt
    rw [if_pos hs]
    cases hsa : a.isNegative
    · have hsb : b.isNegative = true := by
        cases hb2 : b.isNegative
        · rw [hsa, hb2] at hs; exact absurd rfl hs
        · rfl
      have := hb.digits_pos hsb
      have := digitsVal_nonneg ha.1.2.1
      rw [value_of_nonneg hsa, value_of_neg hsb]
      constructor
      · intro h; exact Bool.noConfusion h
      · intro h; omega
    · have hsb : b.isNegative = false := by
        cases hb2 : b.isNegative
        · rfl
        · rw [hsa, hb2] at hs; exact absurd rfl hs
      have := ha.digits_pos hsa
      have := digitsVal_nonneg hb.1.2.1
      rw [value_of_neg hsa, value_of_nonneg hsb]
      constructor
      · intro _; omega
      · intro _; rfl

/-- C7: on well-formed operands the four comparison operators `<`, `>`, `<=`
and `>=` agree with the order of the integers the operands denote. -/
theorem comparison_agrees_with_integer_order (a b : BigNumber)
    (ha : WellFormed a) (hb : WellFormed b) :
    (lt a b = true ↔ value a < value b) ∧ (gt a b = true ↔ value a > value b) ∧
    (le a b = true ↔ value a ≤ value b) ∧ (ge a b = true ↔ value a ≥ value b) := by
  have h1 := lt_iff ha hb
  have h2 := lt_iff hb ha
  refine ⟨h1, h2, ?_, ?_⟩
  · unfold le gt
    rw [Bool.not_eq_true', ← Bool.not_eq_true, h2]; omega
  · unfold ge
    rw [Bool.not_eq_true', ← Bool.not_eq_true, h1]; omega

/-- Witness for C7 at `-25` and `-103`. -/
theorem comparison_agrees_with_integer_order_witness :
    WellFormed ⟨[5, 2], true⟩ ∧ WellFormed ⟨[3, 0, 1], true⟩ ∧
    ((lt ⟨[5, 2], true⟩ ⟨[3, 0, 1], true⟩ = true ↔
        value ⟨[5, 2], true⟩ < value ⟨[3, 0, 1], true⟩) ∧
     (gt ⟨[5, 2], true⟩ ⟨[3, 0, 1], true⟩ = true ↔
        value ⟨[5, 2], true⟩ > value ⟨[3, 0, 1], true⟩) ∧
     (le ⟨[5, 2], true⟩ ⟨[3, 0, 1], true⟩ = true ↔
        value ⟨[5, 2], true⟩ ≤ value ⟨[3, 0, 1], true⟩) ∧
     (ge ⟨[5, 2], true⟩ ⟨[3, 0, 1], true⟩ = true ↔
        value ⟨[5, 2], true⟩ ≥ value ⟨[3, 0, 1], true⟩)) :=
  ⟨by decide, by decide,
    comparison_agrees_with_integer_order ⟨[5, 2], true⟩ ⟨[3, 0, 1], true⟩ (by decide) (by decide)⟩

/-! ## The string constructor -/

theorem isdigit_iff (c : Char) : isdigit c = true ↔ c ∈ decimalDigits := by
  constructor
  · intro h
    simp only [isdigit, Bool.and_eq_true, decide_eq_true_eq] at h
    obtain ⟨h1, h2⟩ := h
    have hc : Char.ofNat c.toNat = c := Char.ofNat_toNat c
    rw [← hc]
    generalize c.toNat = n at h1 h2
    interval_cases n <;> decide
  · intro h
    simp only [decimalDigits, List.mem_cons, List.mem_singleton, List.not_mem_nil, or_false] at h
    rcases h with h | h | h | h | h | h | h | h | h | h <;> subst h <;> decide

theorem readDigits_ok : ∀ (cs : List Char) (acc : List Int), (∀ c ∈ cs, c ∈ decimalDigits) →
    readDigits cs acc = Except.ok (acc ++ cs.map (fun c => (c.toNat : Int) - 48)) := by
  intro cs
  induction cs with
  | nil => intro acc _; simp [readDigits]
  | cons c cs ih =>
    intro acc h
    have hc : isdigit c = true := (isdigit_iff c).mpr (h c (by simp))
    rw [readDigits, hc]
    simp only [Bool.true_eq_false, if_false]
    rw [ih _ (fun d hd => h d (by simp [hd]))]
    simp

theorem readDigits_error : ∀ (cs : List Char) (acc : List Int), (∃ c ∈ cs, c ∉ decimalDigits) →
    readDigits cs acc = Except.error "Invalid character in input string" := by
  intro cs
  induction cs with
  | nil => intro acc h; obtain ⟨c, hc, _⟩ := h; simp at hc
  | cons c cs ih =>
    intro acc h
    by_cases hc : isdigit c = true
    · rw [readDigits, hc]
      simp only [Bool.true_eq_false, if_false]
      apply ih
      obtain ⟨d, hd, hnd⟩ := h
      rcases List.mem_cons.mp hd with rfl | hd
      · exact absurd ((isdigit_iff _).mp hc) hnd
      · exact ⟨d, hd, hnd⟩
    · rw [readDigits]
      simp only [Bool.not_eq_true] at hc
      rw [if_pos hc]

theorem ofString_body (s : List Char) (hs : s ≠ []) :
    ofString s =
      match readDigits (numericPortion s).reverse [] with
      | Except.error e => Except.error e
      | Except.ok ds => Except.ok (trimLeadingZeros ⟨ds, decide (s.head? = some '-')⟩) := by
  unfold ofString
  rw [if_neg hs]
  have : s.drop (if s.head? = some '-' then 1 else if s.head? = some '+' then 1 else 0)
      = numericPortion s := by
    match s, hs with
    | c :: rest, _ =>
      by_cases h1 : c = '-'
      · subst h1; simp [numericPortion]
      · by_cases h2 : c = '+'
        · subst h2; simp [numericPortion]
        · simp only [List.head?_cons, Option.some.injEq, h1, h2, if_false, List.drop_zero]
          unfold numericPortion
          split
          · next heq => simp at heq; exact absurd heq.1 h1
          · next heq => simp at heq; exact absurd heq.1 h2
          · rfl
  simp only [this]

theorem ofString_ok_of_digits (s : List Char) (hs : s ≠ [])
    (h : ∀ c ∈ numericPortion s, c ∈ decimalDigits) :
    ofString s = Except.ok (trimLeadingZeros
      ⟨(numericPortion s).reverse.map (fun c => (c.toNat : Int) - 48),
        decide (s.head? = some '-')⟩) := by
  rw [ofString_body s hs, readDigits_ok _ _ (fun c hc => h c (by simpa using hc))]
  simp

theorem ofString_error_of_nondigit (s : List Char)
    (h : ∃ c ∈ numericPortion s, c ∉ decimalDigits) :
    ofString s = Except.error "Invalid character in input string" := by
  have hs : s ≠ [] := by
    rintro rfl
    obtain ⟨c, hc, _⟩ := h
    simp [numericPortion] at hc
  rw [ofString_body s hs, readDigits_error _ _ (by
    obtain ⟨c, hc, hn⟩ := h
    exact ⟨c, by simpa using hc, hn⟩)]

/-- C9: the string constructor throws exactly when some character after the
optional single leading sign is not a decimal digit; so a second sign, an
inner sign and a blank are rejected, and the empty string is accepted and
gives zero. -/
theorem ofString_fails_iff_nondigit (s : List Char) :
    ((∃ e, ofString s = Except.error e) ↔ ∃ c ∈ numericPortion s, c ∉ decimalDigits) ∧
    (∃ e, ofString ['-', '-', '1'] = Except.error e) ∧
    (∃ e, ofString ['+', '-', '1'] = Except.error e) ∧
    (∃ e, ofString ['1', '-', '2'] = Except.error e) ∧
    (∃ e, ofString [' ', '1'] = Except.error e) ∧
    (∃ e, ofString ['1', ' '] = Except.error e) ∧
    ofString [] = Except.ok ⟨[0], false⟩ ∧ value ⟨[0], false⟩ = 0 := by
  refine ⟨⟨?_, ?_⟩, ⟨_, rfl⟩, ⟨_, rfl⟩, ⟨_, rfl⟩, ⟨_, rfl⟩, ⟨_, rfl⟩, rfl, rfl⟩
  · rintro ⟨e, he⟩
    by_contra hno
    have hall : ∀ c ∈ numericPortion s, c ∈ decimalDigits := by
      intro c hc
      by_contra hcd
      exact hno ⟨c, hc, hcd⟩
    by_cases hs : s = []
    · subst hs; simp [ofString] at he
    · rw [ofString_ok_of_digits s hs hall] at he
      exact Except.noConfusion he
  · intro h
    exact ⟨_, ofString_error_of_nondigit s h⟩

/-! ## Printing and reading back -/

theorem digit_cases {d : Int} (h : 0 ≤ d ∧ d ≤ 9) :
    d = 0 ∨ d = 1 ∨ d = 2 ∨ d = 3 ∨ d = 4 ∨ d = 5 ∨ d = 6 ∨ d = 7 ∨ d = 8 ∨ d = 9 := by
  omega

theorem intToString_digit {d : Int} (h : 0 ≤ d ∧ d ≤ 9) : intToString d = [digitChar d] := by
  rcases digit_cases h with h | h | h | h | h | h | h | h | h | h <;> subst h <;> rfl

theorem digitChar_mem {d : Int} (h : 0 ≤ d ∧ d ≤ 9) : digitChar d ∈ decimalDigits := by
  rcases digit_cases h with h | h | h | h | h | h | h | h | h | h <;> subst h <;> decide

theorem digitChar_toNat {d : Int} (h : 0 ≤ d ∧ d ≤ 9) : ((digitChar d).toNat : Int) - 48 = d := by
  rcases digit_cases h with h | h | h | h | h | h | h | h | h | h <;> subst h <;> decide

theorem digitChar_eq_zero {d : Int} (h : 0 ≤ d ∧ d ≤ 9) (h0 : digitChar d = '0') : d = 0 := by
  rcases digit_cases h with h | h | h | h | h | h | h | h | h | h <;> subst h <;>
    first | rfl | exact absurd h0 (by decide)

theorem flatten_intToString {ds : List Int} (h : InRange ds) :
    (ds.map intToString).flatten = ds.map digitChar := by
  induction ds with
  | nil => rfl
  | cons d ds ih =>
    rw [List.map_cons, List.flatten_cons, intToString_digit (h d (by simp)),
      ih (fun e he => h e (by simp [he]))]
    rfl

theorem to_string_of_ne_zero {x : BigNumber} (hr : InRange x.number_digits)
    (h0 : x.number_digits ≠ [0]) :
    to_string x = (if x.isNegative then ['-'] else []) ++ x.number_digits.reverse.map digitChar := by
  unfold to_string
  rw [if_neg (by rw [single_zero_iff]; exact h0),
    flatten_intToString (fun d hd => hr d (by simpa using hd))]

theorem to_string_of_zero {x : BigNumber} (h0 : x.number_digits = [0]) : to_string x = ['0'] := by
  unfold to_string
  rw [if_pos (by rw [single_zero_iff]; exact h0)]

theorem textValue_append (cs : List Char) (c : Char) :
    textValue (cs ++ [c]) = 10 * textValue cs + ((c.toNat : Int) - 48) := by
  simp [textValue, List.foldl_append]

theorem textValue_eq (cs : List Char) :
    textValue cs = digitsVal (cs.reverse.map (fun c => (c.toNat : Int) - 48)) := by
  induction cs using List.reverseRecOn with
  | nil => rfl
  | append_singleton cs c ih =>
    rw [textValue_append, ih]
    simp [digitsVal]; ring

theorem map_digit_digitChar {ds : List Int} (h : InRange ds) :
    (ds.map digitChar).map (fun c => (c.toNat : Int) - 48) = ds := by
  induction ds with
  | nil => rfl
  | cons d ds ih =>
    simp only [List.map_cons]
    rw [digitChar_toNat (h d (by simp)), ih (fun e he => h e (by simp [he]))]

theorem numericPortion_digit_head {c : Char} (rest : List Char) (hc : c ∈ decimalDigits) :
    numericPortion (c :: rest) = c :: rest := by
  have h1 : c ≠ '-' := by rintro rfl; exact absurd hc (by decide)
  have h2 : c ≠ '+' := by rintro rfl; exact absurd hc (by decide)
  unfold numericPortion
  split
  · next heq => simp at heq; exact absurd heq.1 h1
  · next heq => simp at heq; exact absurd heq.1 h2
  · rfl

theorem to_string_canonical {x : BigNumber} (hx : WellFormed x) :
    IsCanonicalText (to_string x) (value x) := by
  by_cases h0 : x.number_digits = [0]
  · have hv : value x = 0 := by
      unfold value; rw [h0]; simp [digitsVal]
    rw [to_string_of_zero h0, hv]
    exact ⟨['0'], by simp, by decide, fun _ => rfl, by decide, by simp⟩
  · have hr := hx.1.2.1
    have hpos := digitsVal_pos hx.1 h0
    rw [to_string_of_ne_zero hr h0]
    refine ⟨x.number_digits.reverse.map digitChar, ?_, ?_, ?_, ?_, ?_⟩
    · simpa using hx.1.1
    · intro c hc
      simp only [List.mem_map, List.mem_reverse] at hc
      obtain ⟨d, hd, rfl⟩ := hc
      exact digitChar_mem (hr d hd)
    · intro hh
      exfalso
      rw [List.head?_map, List.head?_reverse] at hh
      cases hl : x.number_digits.getLast? with
      | none => rw [hl] at hh; simp at hh
      | some d =>
        rw [hl] at hh
        simp only [Option.map_some', Option.some.injEq] at hh
        have hdm : d ∈ x.number_digits := List.mem_of_getLast?_eq_some hl
        have := digitChar_eq_zero (hr d hdm) hh
        subst this
        exact h0 (hx.1.2.2 hl)
    · rw [textValue_eq, ← List.map_reverse, List.reverse_reverse, map_digit_digitChar hr]
      unfold value
      split
      · rw [abs_neg, abs_of_pos hpos]
      · rw [abs_of_pos hpos]
    · congr 1
      unfold value
      cases x.isNegative
      · simp; omega
      · simp [hpos]

theorem ofString_to_string {x : BigNumber} (hx : WellFormed x) :
    ofString (to_string x) = Except.ok x := by
  by_cases h0 : x.number_digits = [0]
  · rw [to_string_of_zero h0]
    have hs := hx.2 h0
    have : x = ⟨[0], false⟩ := by cases x; simp_all
    rw [this]; rfl
  · have hr := hx.1.2.1
    rw [to_string_of_ne_zero hr h0]
    have hdig : ∀ c ∈ x.number_digits.reverse.map digitChar, c ∈ decimalDigits := by
      intro c hc
      simp only [List.mem_map, List.mem_reverse] at hc
      obtain ⟨d, hd, rfl⟩ := hc
      exact digitChar_mem (hr d hd)
    obtain ⟨c, rest, hcr⟩ : ∃ c rest, x.number_digits.reverse.map digitChar = c :: rest := by
      cases hm : x.number_digits.reverse.map digitChar with
      | nil => simp at hm; exact absurd hm hx.1.1
      | cons c rest => exact ⟨c, rest, rfl⟩
    have hc : c ∈ decimalDigits := hdig c (by rw [hcr]; simp)
    have hfin : trimLeadingZeros
        ⟨(x.number_digits.reverse.map digitChar).reverse.map (fun c => (c.toNat : Int) - 48),
          x.isNegative⟩ = x := by
      rw [← List.map_reverse, List.reverse_reverse, map_digit_digitChar hr]
      exact trim_id hx
    cases hn : x.isNegative with
    | true =>
      simp only [if_true, List.singleton_append]
      rw [ofString_ok_of_digits _ (by simp) (by simpa [numericPortion] using hdig)]
      simp only [numericPortion, List.head?_cons, decide_True]
      rw [← hn]; exact congrArg _ hfin
    | false =>
      simp only [Bool.false_eq_true, if_false, List.nil_append]
      rw [hn] at hfin
      rw [hcr] at hfin hdig ⊢
      have hne : c ≠ '-' := by rintro rfl; exact absurd hc (by decide)
      rw [ofString_ok_of_digits _ (by simp) (by rw [numericPortion_digit_head rest hc]; exact hdig)]
      rw [numericPortion_digit_head rest hc]
      simp only [List.head?_cons, Option.some.injEq, hne, decide_False]
      exact congrArg _ hfin

theorem ofString_signed (sign body : List Char)
    (hsign : sign = [] ∨ sign = ['+'] ∨ sign = ['-']) (hne : body ≠ [])
    (hdig : ∀ c ∈ body, c ∈ decimalDigits) :
    ofString (sign ++ body) = Except.ok (trimLeadingZeros
      ⟨body.reverse.map (fun c => (c.toNat : Int) - 48), decide (sign = ['-'])⟩) := by
  obtain ⟨c, rest, rfl⟩ : ∃ c rest, body = c :: rest := by
    cases body with
    | nil => exact absurd rfl hne
    | cons c rest => exact ⟨c, rest, rfl⟩
  have hc : c ∈ decimalDigits := hdig c (by simp)
  have hcm : c ≠ '-' := by rintro rfl; exact absurd hc (by decide)
  rcases hsign with rfl | rfl | rfl
  · rw [List.nil_append, ofString_ok_of_digits _ (by simp)
      (by rw [numericPortion_digit_head rest hc]; exact hdig),
      numericPortion_digit_head rest hc]
    simp [hcm]
  · rw [ofString_ok_of_digits _ (by simp) (by simpa [numericPortion] using hdig)]
    simp [numericPortion]
  · rw [ofString_ok_of_digits _ (by simp) (by simpa [numericPortion] using hdig)]
    simp [numericPortion]

theorem inRange_map_digit {body : List Char} (hdig : ∀ c ∈ body, c ∈ decimalDigits) :
    InRange (body.reverse.map (fun c => (c.toNat : Int) - 48)) := by
  intro d hd
  simp only [List.mem_map, List.mem_reverse] at hd
  obtain ⟨c, hc, rfl⟩ := hd
  have := hdig c hc
  simp only [decimalDigits, List.mem_cons, List.mem_singleton, List.not_mem_nil, or_false] at this
  rcases this with h | h | h | h | h | h | h | h | h | h <;> subst h <;> decide

theorem ofString_wellFormed (sign body : List Char)
    (hsign : sign = [] ∨ sign = ['+'] ∨ sign = ['-']) (hne : body ≠ [])
    (hdig : ∀ c ∈ body, c ∈ decimalDigits) :
    ∃ y, ofString (sign ++ body) = Except.ok y ∧ WellFormed y ∧
      value y = signedValue sign body := by
  refine ⟨_, ofString_signed sign body hsign hne hdig, ?_, ?_⟩
  · exact wellFormed_trim (by simpa using hne) (inRange_map_digit hdig)
  · rw [value_trim]
    unfold value signedValue
    simp only [decide_eq_true_eq]
    rw [textValue_eq]

/-- C8: a string made of an optional sign and at least one decimal digit is
accepted, the value constructed is the integer the string denotes, and
printing it gives the canonical decimal text of that integer (so `-0` and
`000` print as `0`); and a well-formed value printed and read back is
equal to itself under `operator==`. -/
theorem parse_print_round_trip (sign body : List Char) (x : BigNumber)
    (hsign : sign = [] ∨ sign = ['+'] ∨ sign = ['-']) (hne : body ≠ [])
    (hdig : ∀ c ∈ body, c ∈ decimalDigits) (hx : WellFormed x) :
    (∃ y, ofString (sign ++ body) = Except.ok y ∧ value y = signedValue sign body ∧
      IsCanonicalText (to_string y) (signedValue sign body)) ∧
    (ofString ['-', '0']).map to_string = Except.ok ['0'] ∧
    (ofString ['0', '0', '0']).map to_string = Except.ok ['0'] ∧
    (∃ y, ofString (to_string x) = Except.ok y ∧ eq y x = true) := by
  refine ⟨?_, rfl, rfl, ?_⟩
  · obtain ⟨y, hy, hwf, hv⟩ := ofString_wellFormed sign body hsign hne hdig
    exact ⟨y, hy, hv, hv ▸ to_string_canonical hwf⟩
  · exact ⟨x, ofString_to_string hx, by simp [eq]⟩

/-- Witness for C8 at the string `-042` and the value `-42`. -/
theorem parse_print_round_trip_witness :
    (∃ y, ofString (['-'] ++ ['0', '4', '2']) = Except.ok y ∧
      value y = signedValue ['-'] ['0', '4', '2'] ∧
      IsCanonicalText (to_string y) (signedValue ['-'] ['0', '4', '2'])) ∧
    (ofString ['-', '0']).map to_string = Except.ok ['0'] ∧
    (ofString ['0', '0', '0']).map to_string = Except.ok ['0'] ∧
    (∃ y, ofString (to_string ⟨[2, 4], true⟩) = Except.ok y ∧ eq y ⟨[2, 4], true⟩ = true) :=
  parse_print_round_trip ['-'] ['0', '4', '2'] ⟨[2, 4], true⟩ (by decide) (by decide)
    (by decide) (by decide)

/-- C10: the strings `-` and `+` are accepted (the reading loop runs over no
character) and the value constructed has an empty digit list, which breaks
the invariant that the digit list is never empty; the strings with no digit
that the constructor special-cases, and those with digits, do give
well-formed values. -/
theorem ofString_sign_only_not_wellFormed :
    ofString ['-'] = Except.ok ⟨[], true⟩ ∧ ¬ WellFormed ⟨[], true⟩ ∧
    ofString ['+'] = Except.ok ⟨[], false⟩ ∧ ¬ WellFormed ⟨[], false⟩ ∧
    ofString [] = Except.ok ⟨[0], false⟩ ∧ WellFormed ⟨[0], false⟩ ∧
    ofString ['-', '0'] = Except.ok ⟨[0], false⟩ ∧
    ofString ['+', '0', '0', '0'] = Except.ok ⟨[0], false⟩ := by
  refine ⟨rfl, by decide, rfl, by decide, rfl, by decide, rfl, rfl⟩

/-! ## Addition and subtraction of magnitudes -/

theorem InRange.tail {d : Int} {ds : List Int} (h : InRange (d :: ds)) : InRange ds :=
  fun e he => h e (List.mem_cons_of_mem _ he)

theorem InRange.head {d : Int} {ds : List Int} (h : InRange (d :: ds)) : 0 ≤ d ∧ d ≤ 9 :=
  h d (List.mem_cons_self _ _)

theorem InRange.cons {d : Int} {ds : List Int} (hd : 0 ≤ d ∧ d ≤ 9) (h : InRange ds) :
    InRange (d :: ds) := by
  intro e he
  rcases List.mem_cons.mp he with rfl | he
  · exact hd
  · exact h e he

theorem inRange_nil : InRange [] := fun _ h => absurd h (List.not_mem_nil _)

theorem tdiv_ten {s : Int} (h : 0 ≤ s) : Int.tdiv s 10 = s / 10 :=
  Int.tdiv_eq_ediv h (by norm_num)

theorem tmod_ten {s : Int} (h : 0 ≤ s) : Int.tmod s 10 = s % 10 :=
  Int.tmod_eq_emod h (by norm_num)

theorem addLoop_succ (fuel : Nat) (as bs : List Int) (carry : Int) :
    addLoop (fuel + 1) as bs carry =
      if as ≠ [] ∨ bs ≠ [] ∨ carry ≠ 0 then
        (addLoop fuel as.tail bs.tail (Int.tdiv (carry + as.headD 0 + bs.headD 0) 10)).map
          (fun rest => Int.tmod (carry + as.headD 0 + bs.headD 0) 10 :: rest)
      else some [] := by
  cases as <;> cases bs <;> simp [addLoop]

theorem subLoop_cons (x : Int) (as bs : List Int) (borrow : Int) :
    subLoop (x :: as) bs borrow =
      if x - borrow - bs.headD 0 < 0 then (x - borrow - bs.headD 0 + 10) :: subLoop as bs.tail 1
      else (x - borrow - bs.headD 0) :: subLoop as bs.tail 0 := by
  cases bs <;> simp [subLoop]

theorem addLoop_spec : ∀ (fuel : Nat) (as bs : List Int) (carry : Int),
    InRange as → InRange bs → (carry = 0 ∨ carry = 1) →
    max as.length bs.length + 2 ≤ fuel →
    ∃ ds, addLoop fuel as bs carry = some ds ∧ InRange ds ∧
      digitsVal ds = digitsVal as + digitsVal bs + carry ∧
      (as ≠ [] ∨ bs ≠ [] → ds ≠ []) := by
  intro fuel
  induction fuel with
  | zero => intro as bs carry _ _ _ hf; omega
  | succ fuel ih =>
    intro as bs carry ha hb hc hf
    by_cases hstop : as = [] ∧ bs = [] ∧ carry = 0
    · obtain ⟨rfl, rfl, rfl⟩ := hstop
      exact ⟨[], by simp [addLoop], inRange_nil, by simp [digitsVal], by simp⟩
    · have hcond : as ≠ [] ∨ bs ≠ [] ∨ carry ≠ 0 := by
        by_contra hno
        apply hstop
        simp only [not_or, not_not] at hno
        exact hno
      rw [addLoop_succ, if_pos hcond]
      by_cases hemp : as = [] ∧ bs = []
      · obtain ⟨rfl, rfl⟩ := hemp
        have hc1 : carry = 1 := by
          rcases hc with h | h
          · subst h; simp at hcond
          · exact h
        subst hc1
        cases fuel with
        | zero => simp at hf
        | succ f =>
          refine ⟨[1], ?_, by intro d hd; simp at hd; omega, by simp [digitsVal], by simp⟩
          simp [addLoop]
          decide
      · have hlen : 1 ≤ max as.length bs.length := by
          by_contra hl
          apply hemp
          have h0 : max as.length bs.length = 0 := by omega
          have h1 : as.length = 0 := by have := le_max_left as.length bs.length; omega
          have h2 : bs.length = 0 := by have := le_max_right as.length bs.length; omega
          exact ⟨List.length_eq_zero.mp h1, List.length_eq_zero.mp h2⟩
        have hx : 0 ≤ as.headD 0 ∧ as.headD 0 ≤ 9 := by
          cases as with
          | nil => simp
          | cons x xs => exact ha.head
        have hy : 0 ≤ bs.headD 0 ∧ bs.headD 0 ≤ 9 := by
          cases bs with
          | nil => simp
          | cons y ys => exact hb.head
        have hs0 : 0 ≤ carry + as.headD 0 + bs.headD 0 := by omega
        have hs19 : carry + as.headD 0 + bs.headD 0 ≤ 19 := by omega
        rw [tdiv_ten hs0, tmod_ten hs0]
        have hta : InRange as.tail := by
          cases as with
          | nil => exact inRange_nil
          | cons x xs => exact ha.tail
        have htb : InRange bs.tail := by
          cases bs with
          | nil => exact inRange_nil
          | cons y ys => exact hb.tail
        have hfuel : max as.tail.length bs.tail.length + 2 ≤ fuel := by
          simp only [List.length_tail]
          omega
        obtain ⟨rest, hrest, hrr, hrv, _⟩ := ih as.tail bs.tail
          ((carry + as.headD 0 + bs.headD 0) / 10) hta htb (by omega) hfuel
        refine ⟨_, by rw [hrest]; rfl, ?_, ?_, by simp⟩
        · exact InRange.cons (by omega) hrr
        · have hva : digitsVal as = as.headD 0 + 10 * digitsVal as.tail := by
            cases as <;> simp [digitsVal]
          have hvb : digitsVal bs = bs.headD 0 + 10 * digitsVal bs.tail := by
            cases bs <;> simp [digitsVal]
          simp only [digitsVal]
          rw [hrv, hva, hvb]
          omega

theorem addAbsoluteValues_spec {a b : BigNumber} (ha : DigitsOK a.number_digits)
    (hb : DigitsOK b.number_digits) :
    ∃ r, addAbsoluteValues a b = some r ∧ WellFormed r ∧
      digitsVal r.number_digits = digitsVal a.number_digits + digitsVal b.number_digits := by
  obtain ⟨ds, hds, hr, hv, hne⟩ := addLoop_spec
    (max a.number_digits.length b.number_digits.length + 11) a.number_digits b.number_digits 0
    ha.2.1 hb.2.1 (Or.inl rfl) (by omega)
  refine ⟨trimLeadingZeros ⟨ds, false⟩, by simp [addAbsoluteValues, hds], ?_, ?_⟩
  · exact wellFormed_trim (hne (Or.inl ha.1)) hr
  · rw [trim_digits, popZeros_val, List.reverse_reverse, hv, add_zero]

theorem subLoop_spec : ∀ (as bs : List Int) (borrow : Int),
    InRange as → InRange bs → (borrow = 0 ∨ borrow = 1) → bs.length ≤ as.length →
    InRange (subLoop as bs borrow) ∧ (subLoop as bs borrow).length = as.length ∧
    ∃ fb : Int, (fb = 0 ∨ fb = 1) ∧
      digitsVal (subLoop as bs borrow) =
        digitsVal as - digitsVal bs - borrow + 10 ^ as.length * fb := by
  intro as
  induction as with
  | nil =>
    intro bs borrow _ _ hb hl
    have : bs = [] := List.length_eq_zero.mp (by simpa using hl)
    subst this
    refine ⟨inRange_nil, rfl, borrow, hb, ?_⟩
    simp [subLoop, digitsVal]
  | cons x as ih =>
    intro bs borrow ha hb hbo hl
    have hx := ha.head
    have hy : 0 ≤ bs.headD 0 ∧ bs.headD 0 ≤ 9 := by
      cases bs with
      | nil => simp
      | cons y ys => exact hb.head
    have htb : InRange bs.tail := by
      cases bs with
      | nil => exact inRange_nil
      | cons y ys => exact hb.tail
    have hlt : bs.tail.length ≤ as.length := by
      simp only [List.length_tail, List.length_cons] at hl ⊢
      omega
    have hvb : digitsVal bs = bs.headD 0 + 10 * digitsVal bs.tail := by
      cases bs <;> simp [digitsVal]
    rw [subLoop_cons]
    by_cases hneg : x - borrow - bs.headD 0 < 0
    · rw [if_pos hneg]
      obtain ⟨h1, h2, fb, hfb, hv⟩ := ih bs.tail 1 ha.tail htb (Or.inr rfl) hlt
      refine ⟨InRange.cons (by omega) h1, by simp [h2], fb, hfb, ?_⟩
      simp only [digitsVal, List.length_cons, pow_succ]
      rw [hv, hvb]
      ring
    · rw [if_neg hneg]
      obtain ⟨h1, h2, fb, hfb, hv⟩ := ih bs.tail 0 ha.tail htb (Or.inl rfl) hlt
      refine ⟨InRange.cons (by omega) h1, by simp [h2], fb, hfb, ?_⟩
      simp only [digitsVal, List.length_cons, pow_succ]
      rw [hv, hvb]
      ring

theorem subtractAbsoluteValues_spec {a b : BigNumber} (ha : DigitsOK a.number_digits)
    (hb : DigitsOK b.number_digits)
    (hle : digitsVal b.number_digits ≤ digitsVal a.number_digits) :
    WellFormed (subtractAbsoluteValues a b) ∧
    digitsVal (subtractAbsoluteValues a b).number_digits =
      digitsVal a.number_digits - digitsVal b.number_digits := by
  have hlen : b.number_digits.length ≤ a.number_digits.length := by
    by_contra hl
    have := digitsVal_lt_of_length_lt ha.1 ha.2.1 hb (by omega)
    omega
  obtain ⟨h1, h2, fb, hfb, hv⟩ := subLoop_spec a.number_digits b.number_digits 0
    ha.2.1 hb.2.1 (Or.inl rfl) hlen
  have hne : subLoop a.number_digits b.number_digits 0 ≠ [] := by
    intro h0
    rw [h0] at h2
    exact ha.1 (List.length_eq_zero.mp h2.symm)
  have hfb0 : fb = 0 := by
    rcases hfb with h | h
    · exact h
    · exfalso
      subst h
      have hlt := digitsVal_lt_pow h1
      rw [h2, hv] at hlt
      omega
  subst hfb0
  unfold subtractAbsoluteValues
  refine ⟨wellFormed_trim hne h1, ?_⟩
  rw [trim_digits, popZeros_val, List.reverse_reverse, hv]
  ring

/-! ## The operators `+` and `-` -/

theorem ge_absolute {a b : BigNumber} (ha : DigitsOK a.number_digits)
    (hb : DigitsOK b.number_digits) :
    ge (absolute a) (absolute b) = true ↔ digitsVal b.number_digits ≤ digitsVal a.number_digits := by
  unfold ge
  rw [lt_spec (a := absolute a) (b := absolute b) ha hb rfl]
  simp [absolute]

theorem add_spec {a b : BigNumber} (ha : DigitsOK a.number_digits)
    (hb : DigitsOK b.number_digits) :
    ∃ r, add a b = some r ∧ DigitsOK r.number_digits ∧ value r = value a + value b := by
  unfold add
  by_cases hs : a.isNegative = b.isNegative
  · rw [if_pos hs]
    obtain ⟨r, hr, hwf, hv⟩ := addAbsoluteValues_spec ha hb
    refine ⟨⟨r.number_digits, a.isNegative⟩, by rw [hr]; rfl, hwf.1, ?_⟩
    unfold value
    rw [← hs]
    simp only [hv]
    cases a.isNegative <;> simp
    ring
  · rw [if_neg hs]
    have hsign : b.isNegative = !a.isNegative := by
      cases ha2 : a.isNegative <;> cases hb2 : b.isNegative <;> simp_all
    by_cases hge : ge (absolute a) (absolute b) = true
    · rw [if_pos hge]
      have hle := (ge_absolute ha hb).mp hge
      obtain ⟨hwf, hv⟩ := subtractAbsoluteValues_spec ha hb hle
      refine ⟨_, rfl, hwf.1, ?_⟩
      unfold value
      simp only [hv, hsign]
      cases a.isNegative <;> simp <;> ring
    · rw [if_neg hge]
      have hle : digitsVal a.number_digits ≤ digitsVal b.number_digits := by
        have := (ge_absolute ha hb).not.mp hge
        omega
      obtain ⟨hwf, hv⟩ := subtractAbsoluteValues_spec hb ha hle
      refine ⟨_, rfl, hwf.1, ?_⟩
      unfold value
      simp only [hv, hsign]
      cases a.isNegative <;> simp <;> ring

theorem sub_spec {a b : BigNumber} (ha : DigitsOK a.number_digits)
    (hb : DigitsOK b.number_digits) :
    ∃ r, sub a b = some r ∧ DigitsOK r.number_digits ∧ value r = value a - value b := by
  unfold sub
  obtain ⟨r, hr, hd, hv⟩ := add_spec (a := a) (b := ⟨b.number_digits, !b.isNegative⟩) ha hb
  refine ⟨r, hr, hd, ?_⟩
  rw [hv]
  unfold value
  cases b.isNegative <;> simp
  ring

/-- C4: addition is exact.  For well-formed operands of any signs `a + b`
returns a result, and the integer it denotes is the sum of the integers the
operands denote. -/
theorem add_exact (a b : BigNumber) (ha : WellFormed a) (hb : WellFormed b) :
    ∃ r, add a b = some r ∧ value r = value a + value b := by
  obtain ⟨r, hr, _, hv⟩ := add_spec ha.1 hb.1
  exact ⟨r, hr, hv⟩

/-- Witness for C4 at `-125 + 96`. -/
theorem add_exact_witness :
    WellFormed ⟨[5, 2, 1], true⟩ ∧ WellFormed ⟨[6, 9], false⟩ ∧
    ∃ r, add ⟨[5, 2, 1], true⟩ ⟨[6, 9], false⟩ = some r ∧
      value r = value ⟨[5, 2, 1], true⟩ + value ⟨[6, 9], false⟩ :=
  ⟨by decide, by decide, add_exact ⟨[5, 2, 1], true⟩ ⟨[6, 9], false⟩ (by decide) (by decide)⟩

/-- C5: subtraction is exact.  For well-formed operands `a - b` returns a
result denoting the difference of the integers the operands denote; when
`b` is zero the right operand handed to `operator+` is the digit list `[0]`
with the sign flag set, and the result still denotes the value of `a`. -/
theorem sub_exact (a b : BigNumber) (ha : WellFormed a) (hb : WellFormed b) :
    (∃ r, sub a b = some r ∧ value r = value a - value b) ∧
    (b.number_digits = [0] →
      sub a b = add a ⟨[0], true⟩ ∧ ∃ r, add a ⟨[0], true⟩ = some r ∧ value r = value a) := by
  obtain ⟨r, hr, _, hv⟩ := sub_spec ha.1 hb.1
  refine ⟨⟨r, hr, hv⟩, ?_⟩
  intro h0
  have hs := hb.2 h0
  have hsub : sub a b = add a ⟨[0], true⟩ := by
    unfold sub
    rw [h0, hs]
    rfl
  refine ⟨hsub, r, hsub ▸ hr, ?_⟩
  rw [hv]
  unfold value
  rw [h0]
  simp [digitsVal]

/-- Witness for C5 at `-125 - 0`. -/
theorem sub_exact_witness :
    WellFormed ⟨[5, 2, 1], true⟩ ∧ WellFormed ⟨[0], false⟩ ∧
    ((∃ r, sub ⟨[5, 2, 1], true⟩ ⟨[0], false⟩ = some r ∧
        value r = value ⟨[5, 2, 1], true⟩ - value ⟨[0], false⟩) ∧
     ((⟨[0], false⟩ : BigNumber).number_digits = [0] →
        sub ⟨[5, 2, 1], true⟩ ⟨[0], false⟩ = add ⟨[5, 2, 1], true⟩ ⟨[0], true⟩ ∧
        ∃ r, add ⟨[5, 2, 1], true⟩ ⟨[0], true⟩ = some r ∧ value r = value ⟨[5, 2, 1], true⟩)) :=
  ⟨by decide, by decide, sub_exact ⟨[5, 2, 1], true⟩ ⟨[0], false⟩ (by decide) (by decide)⟩

/-! ## Multiplication -/

theorem digitsVal_set : ∀ (ds : List Int) (position : Nat) (v : Int), position < ds.length →
    digitsVal (ds.set position v) = digitsVal ds + 10 ^ position * (v - ds.getD position 0) := by
  intro ds
  induction ds with
  | nil => intro position v h; simp at h
  | cons d ds ih =>
    intro position v h
    cases position with
    | zero => simp [digitsVal]; ring
    | succ n =>
      have hn : n < ds.length := by simpa using h
      simp only [List.set_cons_succ, digitsVal, List.getD_cons_succ, ih n v hn, pow_succ]
      ring

theorem inRange_set {ds : List Int} (h : InRange ds) (position : Nat) {v : Int}
    (hv : 0 ≤ v ∧ v ≤ 9) : InRange (ds.set position v) := by
  intro d hd
  rcases List.mem_or_eq_of_mem_set hd with h1 | h1
  · exact h d h1
  · subst h1; exact hv

theorem inRange_getD {ds : List Int} (h : InRange ds) (position : Nat) :
    0 ≤ ds.getD position 0 ∧ ds.getD position 0 ≤ 9 := by
  by_cases hp : position < ds.length
  · rw [List.getD_eq_getElem _ _ hp]
    exact h _ (List.getElem_mem hp)
  · rw [List.getD_eq_default _ _ (by omega)]
    omega

theorem carryLoop_spec : ∀ (fuel : Nat) (product : Int) (position : Nat) (digits : List Int),
    InRange digits → 0 ≤ product → product ≤ 81 →
    digitsVal digits + 10 ^ position * product < 10 ^ digits.length →
    digits.length - position + 1 ≤ fuel →
    ∃ ds, carryLoop fuel product position digits = some ds ∧ InRange ds ∧
      ds.length = digits.length ∧ digitsVal ds = digitsVal digits + 10 ^ position * product := by
  intro fuel
  induction fuel with
  | zero => intro product position digits _ _ _ _ hf; omega
  | succ fuel ih =>
    intro product position digits hr hp0 hp81 hov hf
    rw [carryLoop]
    by_cases hpos : product > 0
    · rw [if_pos hpos]
      have hnn := digitsVal_nonneg hr
      have hplt : position < digits.length := by
        by_contra hge
        have h1 : (10 : Int) ^ digits.length ≤ 10 ^ position :=
          pow_le_pow_right₀ (by norm_num) (by omega)
        have h2 : (10 : Int) ^ position * 1 ≤ 10 ^ position * product :=
          mul_le_mul_of_nonneg_left (by omega) (by positivity)
        omega
      have hne : position ≠ digits.length := by omega
      simp only [if_neg hne]
      have hd := inRange_getD hr position
      have hs0 : 0 ≤ product + digits.getD position 0 := by omega
      rw [tdiv_ten hs0, tmod_ten hs0]
      have hval := digitsVal_set digits position ((product + digits.getD position 0) % 10) hplt
      have hkey : digitsVal (digits.set position ((product + digits.getD position 0) % 10)) +
          10 ^ (position + 1) * ((product + digits.getD position 0) / 10) =
          digitsVal digits + 10 ^ position * product := by
        rw [hval, pow_succ]
        have := Int.emod_add_ediv (product + digits.getD position 0) 10
        linear_combination (10 : Int) ^ position * this
      obtain ⟨ds, hds, hdr, hdl, hdv⟩ := ih ((product + digits.getD position 0) / 10)
        (position + 1) (digits.set position ((product + digits.getD position 0) % 10))
        (inRange_set hr position (by omega)) (by omega) (by omega)
        (by rw [hkey, List.length_set]; exact hov)
        (by rw [List.length_set]; omega)
      refine ⟨ds, hds, hdr, by rw [hdl, List.length_set], ?_⟩
      rw [hdv, hkey]
    · rw [if_neg hpos]
      have : product = 0 := by omega
      subst this
      exact ⟨digits, rfl, hr, rfl, by simp⟩

theorem mulInner_spec (x : Int) (i : Nat) (hx : 0 ≤ x ∧ x ≤ 9) :
    ∀ (ys : List Int) (j : Nat) (digits : List Int), InRange ys → InRange digits →
    digitsVal digits + 10 ^ (i + j) * (x * digitsVal ys) < 10 ^ digits.length →
    ∃ ds, mulInner x i ys j digits = some ds ∧ InRange ds ∧ ds.length = digits.length ∧
      digitsVal ds = digitsVal digits + 10 ^ (i + j) * (x * digitsVal ys) := by
  intro ys
  induction ys with
  | nil =>
    intro j digits _ hr _
    exact ⟨digits, rfl, hr, rfl, by simp [digitsVal]⟩
  | cons y ys ih =>
    intro j digits hys hr hov
    have hy := hys.head
    have hvy := digitsVal_nonneg hys.tail
    have hxy0 : 0 ≤ x * y := mul_nonneg hx.1 hy.1
    have hxy81 : x * y ≤ 81 := by nlinarith
    have hsplit : (10 : Int) ^ (i + j) * (x * digitsVal (y :: ys)) =
        10 ^ (i + j) * (x * y) + 10 ^ (i + (j + 1)) * (x * digitsVal ys) := by
      simp only [digitsVal, ← add_assoc, pow_succ]
      ring
    have hrest : 0 ≤ (10 : Int) ^ (i + (j + 1)) * (x * digitsVal ys) :=
      mul_nonneg (by positivity) (mul_nonneg hx.1 hvy)
    rw [hsplit] at hov ⊢
    obtain ⟨d1, hd1, hr1, hl1, hv1⟩ := carryLoop_spec (digits.length - (i + j) + 11) (x * y)
      (i + j) digits hr hxy0 hxy81 (by omega) (by omega)
    obtain ⟨d2, hd2, hr2, hl2, hv2⟩ := ih (j + 1) d1 hys.tail hr1
      (by rw [hv1, hl1]; omega)
    refine ⟨d2, ?_, hr2, by rw [hl2, hl1], by rw [hv2, hv1]; ring⟩
    rw [mulInner, hd1]
    exact hd2

theorem mulOuter_spec (bs : List Int) (hbs : InRange bs) :
    ∀ (xs : List Int) (i : Nat) (digits : List Int), InRange xs → InRange digits →
    digitsVal digits + 10 ^ i * (digitsVal xs * digitsVal bs) < 10 ^ digits.length →
    ∃ ds, mulOuter bs xs i digits = some ds ∧ InRange ds ∧ ds.length = digits.length ∧
      digitsVal ds = digitsVal digits + 10 ^ i * (digitsVal xs * digitsVal bs) := by
  intro xs
  induction xs with
  | nil =>
    intro i digits _ hr _
    exact ⟨digits, rfl, hr, rfl, by simp [digitsVal]⟩
  | cons x xs ih =>
    intro i digits hxs hr hov
    have hx := hxs.head
    have hvx := digitsVal_nonneg hxs.tail
    have hvb := digitsVal_nonneg hbs
    have hsplit : (10 : Int) ^ i * (digitsVal (x :: xs) * digitsVal bs) =
        10 ^ (i + 0) * (x * digitsVal bs) + 10 ^ (i + 1) * (digitsVal xs * digitsVal bs) := by
      simp only [digitsVal, pow_succ, add_zero]
      ring
    have hrest : 0 ≤ (10 : Int) ^ (i + 1) * (digitsVal xs * digitsVal bs) :=
      mul_nonneg (by positivity) (mul_nonneg hvx hvb)
    rw [hsplit] at hov ⊢
    obtain ⟨d1, hd1, hr1, hl1, hv1⟩ := mulInner_spec x i hx bs 0 digits hbs hr (by omega)
    obtain ⟨d2, hd2, hr2, hl2, hv2⟩ := ih (i + 1) d1 hxs.tail hr1
      (by rw [hv1, hl1]; omega)
    refine ⟨d2, ?_, hr2, by rw [hl2, hl1], by rw [hv2, hv1]; ring⟩
    rw [mulOuter, hd1]
    exact hd2

theorem resize_new (n : Nat) : resize new.number_digits n 0 = List.replicate n 0 := by
  cases n with
  | zero => rfl
  | succ n => simp [resize, new, List.replicate_succ]

theorem digitsVal_replicate_zero (n : Nat) : digitsVal (List.replicate n 0) = 0 := by
  induction n with
  | zero => rfl
  | succ n ih => simp [List.replicate_succ, digitsVal, ih]

theorem inRange_replicate_zero (n : Nat) : InRange (List.replicate n 0) := by
  intro d hd
  have := List.eq_of_mem_replicate hd
  omega

theorem mul_digits {a b : BigNumber} (ha : InRange a.number_digits) (hb : InRange b.number_digits) :
    ∃ ds, mulOuter b.number_digits a.number_digits 0
        (resize new.number_digits (a.number_digits.length + b.number_digits.length) 0) = some ds ∧
      InRange ds ∧ ds.length = a.number_digits.length + b.number_digits.length ∧
      digitsVal ds = digitsVal a.number_digits * digitsVal b.number_digits := by
  have h1 := digitsVal_lt_pow ha
  have h2 := digitsVal_lt_pow hb
  have hlt : digitsVal a.number_digits * digitsVal b.number_digits <
      10 ^ (a.number_digits.length + b.number_digits.length) := by
    rw [pow_add]
    exact mul_lt_mul'' h1 h2 (digitsVal_nonneg ha) (digitsVal_nonneg hb)
  rw [resize_new]
  obtain ⟨ds, hds, hr, hl, hv⟩ := mulOuter_spec b.number_digits hb a.number_digits 0
    (List.replicate (a.number_digits.length + b.number_digits.length) 0) ha
    (inRange_replicate_zero _)
    (by rw [digitsVal_replicate_zero, List.length_replicate]; simpa using hlt)
  refine ⟨ds, hds, hr, by rw [hl, List.length_replicate], ?_⟩
  rw [hv, digitsVal_replicate_zero]
  ring

theorem mul_spec {a b : BigNumber} (ha : DigitsOK a.number_digits)
    (hb : DigitsOK b.number_digits) :
    ∃ r, mul a b = some r ∧ WellFormed r ∧ value r = value a * value b ∧
      digitsVal r.number_digits = digitsVal a.number_digits * digitsVal b.number_digits := by
  obtain ⟨ds, hds, hr, hl, hv⟩ := mul_digits ha.2.1 hb.2.1
  have hne : ds ≠ [] := by
    intro h0
    rw [h0] at hl
    have := List.length_pos.mpr ha.1
    simp at hl
    omega
  refine ⟨trimLeadingZeros ⟨ds, a.isNegative != b.isNegative⟩, ?_, wellFormed_trim hne hr, ?_, ?_⟩
  · unfold mul
    simp only [hds, Option.map_some']
  · rw [value_trim]
    unfold value
    simp only [hv]
    cases a.isNegative <;> cases b.isNegative <;> simp
  · rw [trim_digits, popZeros_val, List.reverse_reverse, hv]

/-! ## Canonical representation -/

theorem digits_eq_of_val_eq : ∀ (as bs : List Int), InRange as → InRange bs →
    as.length = bs.length → digitsVal as = digitsVal bs → as = bs := by
  intro as
  induction as with
  | nil =>
    intro bs _ _ hl _
    exact (List.length_eq_zero.mp hl.symm).symm
  | cons x xs ih =>
    intro bs ha hb hl hv
    match bs, hb, hl, hv with
    | y :: ys, hb, hl, hv =>
      have hx := ha.head
      have hy := hb.head
      simp only [digitsVal] at hv
      have hxy : x = y := by omega
      subst hxy
      have := ih ys ha.tail hb.tail (by simpa using hl) (by omega)
      rw [this]

theorem digitsOK_eq_of_val_eq {as bs : List Int} (ha : DigitsOK as) (hb : DigitsOK bs)
    (hv : digitsVal as = digitsVal bs) : as = bs := by
  apply digits_eq_of_val_eq as bs ha.2.1 hb.2.1 _ hv
  rcases Nat.lt_trichotomy as.length bs.length with h | h | h
  · have := digitsVal_lt_of_length_lt ha.1 ha.2.1 hb h; omega
  · exact h
  · have := digitsVal_lt_of_length_lt hb.1 hb.2.1 ha h; omega

theorem WellFormed.neg_iff {x : BigNumber} (h : WellFormed x) :
    x.isNegative = true ↔ value x < 0 := by
  constructor
  · intro hn
    have := h.digits_pos hn
    rw [value_of_neg hn]; omega
  · intro hv
    by_contra hn
    have hn2 : x.isNegative = false := by simpa using hn
    rw [value_of_nonneg hn2] at hv
    have := digitsVal_nonneg h.1.2.1
    omega

theorem wellFormed_eq_of_value_eq {a b : BigNumber} (ha : WellFormed a) (hb : WellFormed b)
    (hv : value a = value b) : a = b := by
  have hs : a.isNegative = b.isNegative := by
    have h1 := ha.neg_iff
    have h2 := hb.neg_iff
    rw [hv] at h1
    cases hA : a.isNegative <;> cases hB : b.isNegative <;> simp_all
    all_goals omega
  have hd : digitsVal a.number_digits = digitsVal b.number_digits := by
    unfold value at hv
    rw [hs] at hv
    cases hB : b.isNegative <;> (simp [hB] at hv; omega)
  have := digitsOK_eq_of_val_eq ha.1 hb.1 hd
  cases a; cases b; simp_all

/-- C6: multiplication is exact and canonical.  For well-formed operands
`a * b` returns a well-formed result denoting the product of the values; its
sign flag is set exactly when one operand alone is negative and the product
is not zero; and `a * b == b * a`. -/
theorem mul_exact_canonical (a b : BigNumber) (ha : WellFormed a) (hb : WellFormed b) :
    ∃ r, mul a b = some r ∧ WellFormed r ∧ value r = value a * value b ∧
      (r.isNegative = true ↔ (a.isNegative ≠ b.isNegative ∧ value a * value b ≠ 0)) ∧
      ∃ r2, mul b a = some r2 ∧ eq r r2 = true := by
  obtain ⟨r, hr, hwf, hv, _⟩ := mul_spec ha.1 hb.1
  obtain ⟨r2, hr2, hwf2, hv2, _⟩ := mul_spec hb.1 ha.1
  refine ⟨r, hr, hwf, hv, ?_, r2, hr2, ?_⟩
  · rw [hwf.neg_iff, hv]
    have h1 := ha.neg_iff
    have h2 := hb.neg_iff
    cases hA : a.isNegative <;> cases hB : b.isNegative <;> simp [hA, hB] at h1 h2 ⊢
    · positivity
    · constructor
      · intro h; constructor <;> intro h0 <;> rw [h0] at h <;> simp at h
      · rintro ⟨h3, -⟩
        have : 0 < value a := lt_of_le_of_ne h1 (Ne.symm h3)
        nlinarith
    · constructor
      · intro h; constructor <;> intro h0 <;> rw [h0] at h <;> simp at h
      · rintro ⟨-, h3⟩
        have : 0 < value b := lt_of_le_of_ne h2 (Ne.symm h3)
        nlinarith
    · nlinarith
  · have : r = r2 := wellFormed_eq_of_value_eq hwf hwf2 (by rw [hv, hv2, mul_comm])
    subst this
    simp [eq]

/-- Witness for C6 at `-999 * 99`. -/
theorem mul_exact_canonical_witness :
    WellFormed ⟨[9, 9, 9], true⟩ ∧ WellFormed ⟨[9, 9], false⟩ ∧
    ∃ r, mul ⟨[9, 9, 9], true⟩ ⟨[9, 9], false⟩ = some r ∧ WellFormed r ∧
      value r = value ⟨[9, 9, 9], true⟩ * value ⟨[9, 9], false⟩ ∧
      (r.isNegative = true ↔
        ((⟨[9, 9, 9], true⟩ : BigNumber).isNegative ≠ (⟨[9, 9], false⟩ : BigNumber).isNegative ∧
          value ⟨[9, 9, 9], true⟩ * value ⟨[9, 9], false⟩ ≠ 0)) ∧
      ∃ r2, mul ⟨[9, 9], false⟩ ⟨[9, 9, 9], true⟩ = some r2 ∧ eq r r2 = true :=
  ⟨by decide, by decide,
    mul_exact_canonical ⟨[9, 9, 9], true⟩ ⟨[9, 9], false⟩ (by decide) (by decide)⟩

/-! ## Division -/

theorem le_iff {a b : BigNumber} (ha : WellFormed a) (hb : WellFormed b) :
    le a b = true ↔ value a ≤ value b := by
  unfold le gt
  rw [Bool.not_eq_true', ← Bool.not_eq_true, lt_iff hb ha]
  omega

theorem ofLongLong_small {n : Int} (h0 : 0 ≤ n) (h10 : n ≤ 10) :
    ∃ m, ofLongLong n = some m ∧ WellFormed m ∧ m.isNegative = false ∧
      digitsVal m.number_digits = n := by
  interval_cases n
  · exact ⟨⟨[0], false⟩, by decide, by decide, rfl, rfl⟩
  · exact ⟨⟨[1], false⟩, by decide, by decide, rfl, rfl⟩
  · exact ⟨⟨[2], false⟩, by decide, by decide, rfl, rfl⟩
  · exact ⟨⟨[3], false⟩, by decide, by decide, rfl, rfl⟩
  · exact ⟨⟨[4], false⟩, by decide, by decide, rfl, rfl⟩
  · exact ⟨⟨[5], false⟩, by decide, by decide, rfl, rfl⟩
  · exact ⟨⟨[6], false⟩, by decide, by decide, rfl, rfl⟩
  · exact ⟨⟨[7], false⟩, by decide, by decide, rfl, rfl⟩
  · exact ⟨⟨[8], false⟩, by decide, by decide, rfl, rfl⟩
  · exact ⟨⟨[9], false⟩, by decide, by decide, rfl, rfl⟩
  · exact ⟨⟨[0, 1], false⟩, by decide, by decide, rfl, rfl⟩

theorem mul_absolute_small {b : BigNumber} (hb : DigitsOK b.number_digits) {n : Int}
    (h0 : 0 ≤ n) (h10 : n ≤ 10) :
    ∃ m c, ofLongLong n = some m ∧ mul (absolute b) m = some c ∧ WellFormed c ∧
      c.isNegative = false ∧ digitsVal c.number_digits = digitsVal b.number_digits * n := by
  obtain ⟨m, hm, hwf, hs, hv⟩ := ofLongLong_small h0 h10
  obtain ⟨c, hc, hcw, hcv, hcd⟩ := mul_spec (a := absolute b) (b := m) hb hwf.1
  refine ⟨m, c, hm, hc, hcw, ?_, by rw [hcd, hv]; rfl⟩
  by_contra hneg
  have hneg2 : c.isNegative = true := by simpa using hneg
  have h1 := hcw.neg_iff.mp hneg2
  rw [hcv] at h1
  have h2 : 0 ≤ value (absolute b) := by
    rw [value_of_nonneg rfl]; exact digitsVal_nonneg hb.2.1
  have h3 : 0 ≤ value m := by
    rw [value_of_nonneg hs]; exact digitsVal_nonneg hwf.1.2.1
  nlinarith

theorem searchLoop_spec {b remainder : BigNumber} (hb : DigitsOK b.number_digits)
    (hr : WellFormed remainder) (hrs : remainder.isNegative = false) :
    ∀ (fuel : Nat) (left right quotientDigit : Int), 0 ≤ left → right ≤ 10 → left ≤ right + 1 →
    right - left + 2 ≤ (fuel : Int) →
    (∀ k : Int, 0 ≤ k → k < left → digitsVal b.number_digits * k ≤ digitsVal remainder.number_digits) →
    (∀ k : Int, right < k → k ≤ 10 →
      digitsVal remainder.number_digits < digitsVal b.number_digits * k) →
    ((left = 0 ∧ quotientDigit = 0) ∨ (1 ≤ left ∧ quotientDigit = left - 1)) →
    ∃ q, searchLoop b remainder fuel left right quotientDigit = some q ∧ 0 ≤ q ∧ q ≤ 10 ∧
      digitsVal b.number_digits * q ≤ digitsVal remainder.number_digits ∧
      (q < 10 → digitsVal remainder.number_digits < digitsVal b.number_digits * (q + 1)) := by
  intro fuel
  induction fuel with
  | zero => intro left right qd _ _ _ hf; omega
  | succ fuel ih =>
    intro left right qd hl0 hr10 hlr hf hlow hhigh hqd
    have hB := digitsVal_nonneg hb.2.1
    have hV := digitsVal_nonneg hr.1.2.1
    rw [searchLoop]
    by_cases hcond : left ≤ right
    · rw [if_pos hcond]
      have hsum : 0 ≤ left + right := by omega
      rw [Int.tdiv_eq_ediv hsum (by norm_num)]
      have hmid1 : left ≤ (left + right) / 2 := by omega
      have hmid2 : (left + right) / 2 ≤ right := by omega
      obtain ⟨m, c, hm, hc, hcw, hcs, hcv⟩ := mul_absolute_small hb
        (n := (left + right) / 2) (by omega) (by omega)
      simp only [hm, hc, Option.some_bind]
      have hle : le c (absolute remainder) = true ↔
          digitsVal b.number_digits * ((left + right) / 2) ≤ digitsVal remainder.number_digits := by
        have habs : absolute remainder = remainder := by
          cases remainder; simp_all [absolute]
        rw [habs, le_iff hcw hr, value_of_nonneg hcs, value_of_nonneg hrs, hcv]
      by_cases hp : le c (absolute remainder) = true
      · rw [if_pos hp]
        have hp2 := hle.mp hp
        apply ih ((left + right) / 2 + 1) right ((left + right) / 2) (by omega) hr10 (by omega)
          (by omega) _ hhigh (Or.inr ⟨by omega, by omega⟩)
        intro k hk0 hk
        have : digitsVal b.number_digits * k ≤ digitsVal b.number_digits * ((left + right) / 2) :=
          mul_le_mul_of_nonneg_left (by omega) hB
        omega
      · rw [if_neg hp]
        have hp2 : digitsVal remainder.number_digits <
            digitsVal b.number_digits * ((left + right) / 2) := by
          have := hle.not.mp hp
          omega
        apply ih left ((left + right) / 2 - 1) qd hl0 (by omega) (by omega) (by omega) hlow _ hqd
        intro k hk hk10
        have : digitsVal b.number_digits * ((left + right) / 2) ≤ digitsVal b.number_digits * k :=
          mul_le_mul_of_nonneg_left (by omega) hB
        omega
    · rw [if_neg hcond]
      have hlr2 : left = right + 1 := by omega
      rcases hqd with ⟨h1, h2⟩ | ⟨h1, h2⟩
      · subst h2
        refine ⟨0, rfl, le_refl _, by norm_num, by simpa using hV, ?_⟩
        intro _
        exact hhigh (0 + 1) (by omega) (by norm_num)
      · refine ⟨qd, rfl, by omega, by omega, hlow qd (by omega) (by omega), ?_⟩
        intro hq
        exact hhigh (qd + 1) (by omega) (by omega)

theorem sub_of_nonneg {a b : BigNumber} (ha : DigitsOK a.number_digits)
    (hb : DigitsOK b.number_digits) (has : a.isNegative = false) (hbs : b.isNegative = false)
    (hle : digitsVal b.number_digits ≤ digitsVal a.number_digits) :
    ∃ r, sub a b = some r ∧ WellFormed r ∧ r.isNegative = false ∧
      digitsVal r.number_digits = digitsVal a.number_digits - digitsVal b.number_digits := by
  have hge : ge (absolute a) (absolute ⟨b.number_digits, !b.isNegative⟩) = true :=
    (ge_absolute (a := a) (b := ⟨b.number_digits, !b.isNegative⟩) ha hb).mpr hle
  obtain ⟨hwf, hv⟩ := subtractAbsoluteValues_spec (a := a)
    (b := ⟨b.number_digits, !b.isNegative⟩) ha hb hle
  refine ⟨⟨(subtractAbsoluteValues a ⟨b.number_digits, !b.isNegative⟩).number_digits, false⟩,
    ?_, ⟨hwf.1, fun _ => rfl⟩, rfl, hv⟩
  unfold sub add
  simp only [has, hbs, Bool.not_false]
  rw [if_neg (by decide)]
  rw [hbs, Bool.not_false] at hge
  rw [if_pos hge]

theorem divLoop_spec {b : BigNumber} (hb : DigitsOK b.number_digits) :
    ∀ (ds : List Int) (result remainder : BigNumber), InRange ds →
    InRange result.number_digits → WellFormed remainder → remainder.isNegative = false →
    digitsVal remainder.number_digits < digitsVal b.number_digits →
    ∃ res rem, divLoop b ds result remainder = some (res, rem) ∧
      InRange res.number_digits ∧
      res.number_digits.length = result.number_digits.length + ds.length ∧
      res.isNegative = result.isNegative ∧
      WellFormed rem ∧ rem.isNegative = false ∧
      digitsVal rem.number_digits < digitsVal b.number_digits ∧
      digitsVal res.number_digits * digitsVal b.number_digits + digitsVal rem.number_digits =
        (digitsVal result.number_digits * digitsVal b.number_digits +
          digitsVal remainder.number_digits) * 10 ^ ds.length + digitsVal ds.reverse := by
  intro ds
  induction ds with
  | nil =>
    intro result remainder _ hres hrem hs hlt
    exact ⟨result, remainder, rfl, hres, rfl, rfl, hrem, hs, hlt, by simp [digitsVal]⟩
  | cons d ds ih =>
    intro result remainder hds hres hrem hs hlt
    have hd := hds.head
    have hR := digitsVal_nonneg hrem.1.2.1
    -- the remainder with the next digit brought down
    have hwf1 : WellFormed (trimLeadingZeros ⟨d :: remainder.number_digits, remainder.isNegative⟩) :=
      wellFormed_trim (by simp) (InRange.cons hd hrem.1.2.1)
    have hs1 : (trimLeadingZeros ⟨d :: remainder.number_digits, remainder.isNegative⟩).isNegative
        = false := by
      rw [trim_sign]; split
      · rfl
      · exact hs
    have hv1 : digitsVal
        (trimLeadingZeros ⟨d :: remainder.number_digits, remainder.isNegative⟩).number_digits
        = d + 10 * digitsVal remainder.number_digits := by
      rw [trim_digits, popZeros_val, List.reverse_reverse]; rfl
    -- the quotient digit
    obtain ⟨q, hq, hq0, hq10, hqle, hqlt⟩ := searchLoop_spec hb hwf1 hs1 12 0 10 0
      (le_refl _) (le_refl _) (by norm_num) (by norm_num)
      (fun k h1 h2 => absurd h2 (by omega)) (fun k h1 h2 => absurd h2 (by omega))
      (Or.inl ⟨rfl, rfl⟩)
    rw [hv1] at hqle hqlt
    have hq9 : q ≤ 9 := by
      by_contra h
      have : q = 10 := by omega
      subst this
      omega
    have hqlt2 := hqlt (by omega)
    obtain ⟨m, c, hm, hc, hcw, hcs, hcv⟩ := mul_absolute_small hb hq0 hq10
    obtain ⟨r2, hr2, hr2w, hr2s, hr2v⟩ := sub_of_nonneg hwf1.1 hcw.1 hs1 hcs
      (by rw [hcv, hv1]; exact hqle)
    rw [hcv, hv1] at hr2v
    have hmul : digitsVal b.number_digits * (q + 1) =
        digitsVal b.number_digits * q + digitsVal b.number_digits := by ring
    obtain ⟨res, rem, hloop, h1, h2, h3, h4, h5, h6, h7⟩ := ih
      ⟨q :: result.number_digits, result.isNegative⟩ r2 hds.tail
      (InRange.cons ⟨hq0, hq9⟩ hres) hr2w hr2s (by rw [hr2v]; omega)
    refine ⟨res, rem, ?_, h1, ?_, h3, h4, h5, h6, ?_⟩
    · rw [divLoop]
      simp only [hq, hm, hc, hr2, Option.some_bind]
      exact hloop
    · rw [h2]; simp only [List.length_cons]; omega
    · rw [h7, hr2v]
      simp only [digitsVal, List.reverse_cons, digitsVal_append, List.length_reverse,
        List.length_cons, pow_succ, mul_zero, add_zero]
      ring

theorem divide_spec {a b : BigNumber} (ha : DigitsOK a.number_digits) (has : a.isNegative = false)
    (hb : DigitsOK b.number_digits) (hb0 : 0 < digitsVal b.number_digits) :
    ∃ q r, divide a b = some (q, r) ∧ WellFormed q ∧ WellFormed r ∧ r.isNegative = false ∧
      digitsVal q.number_digits = digitsVal a.number_digits / digitsVal b.number_digits ∧
      digitsVal r.number_digits = digitsVal a.number_digits % digitsVal b.number_digits ∧
      q.isNegative = (if q.number_digits = [0] then false else b.isNegative) := by
  have hne : eq b ⟨[0], false⟩ = false := by
    have : b.number_digits ≠ [0] := by
      intro h0; rw [h0] at hb0; simp [digitsVal] at hb0
    simp [eq, this]
  obtain ⟨res, rem, hloop, h1, h2, h3, h4, h5, h6, h7⟩ := divLoop_spec hb
    a.number_digits.reverse
    ⟨resize new.number_digits a.number_digits.length 0, a.isNegative != b.isNegative⟩
    ⟨new.number_digits, a.isNegative⟩
    (fun d hd => ha.2.1 d (by simpa using hd))
    (by rw [resize_new]; exact inRange_replicate_zero _)
    (by rw [has]; decide) has (by simpa [new, digitsVal] using hb0)
  rw [resize_new] at h2 h7
  simp only [digitsVal_replicate_zero, new, digitsVal, List.reverse_reverse,
    List.length_reverse, List.length_replicate] at h2 h7
  have hA := digitsVal_nonneg ha.2.1
  have hR := digitsVal_nonneg h4.1.2.1
  have hnn : res.number_digits ≠ [] := by
    intro h0
    rw [h0] at h2
    have := List.length_pos.mpr ha.1
    simp at h2
    omega
  have hQ := digitsVal_nonneg h1
  have h7b : digitsVal res.number_digits * digitsVal b.number_digits + digitsVal rem.number_digits
      = digitsVal a.number_digits := by
    rw [h7]; ring
  have hquot : digitsVal a.number_digits / digitsVal b.number_digits = digitsVal res.number_digits := by
    rw [← h7b]
    rw [Int.add_comm, Int.add_mul_ediv_right _ _ (by omega), Int.ediv_eq_zero_of_lt hR h6]
    ring
  have hrem : digitsVal a.number_digits % digitsVal b.number_digits = digitsVal rem.number_digits := by
    rw [← h7b]
    rw [Int.add_comm, Int.add_mul_emod_self, Int.emod_eq_of_lt hR h6]
  refine ⟨trimLeadingZeros res, trimLeadingZeros rem, ?_, wellFormed_trim hnn h1, ?_, ?_, ?_, ?_, ?_⟩
  · unfold divide
    have hz : (ofString ['0']).toOption = some ⟨[0], false⟩ := rfl
    rw [hz]
    simp only [Option.some_bind, hne, Bool.false_eq_true, if_false, hloop, Option.map_some']
  · rw [trim_id h4]; exact h4
  · rw [trim_id h4]; exact h5
  · rw [trim_digits, popZeros_val, List.reverse_reverse, hquot]
  · rw [trim_id h4, hrem]
  · rw [trim_sign, h3]
    simp [has]

/-- C2: for a well-formed dividend that is not negative and a well-formed
divisor that is not zero (of either sign), `divide` returns a well-formed
pair: the quotient denotes the truncated quotient, the remainder denotes
the dividend minus quotient times divisor and lies between zero and the
magnitude of the divisor; so `0 / 5` gives `(0, 0)` and `7 % (-3)` gives `1`
with quotient `-2`. -/
theorem divide_nonneg_dividend (a b : BigNumber) (ha : WellFormed a) (hb : WellFormed b)
    (ha0 : 0 ≤ value a) (hb0 : value b ≠ 0) :
    (∃ q r, divide a b = some (q, r) ∧ WellFormed q ∧ WellFormed r ∧
      value q = Int.tdiv (value a) (value b) ∧ value r = value a - value q * value b ∧
      0 ≤ value r ∧ value r < |value b|) ∧
    ((ofLongLong 0).bind fun x => (ofLongLong 5).bind fun y => divide x y) =
      some (⟨[0], false⟩, ⟨[0], false⟩) ∧
    ((ofLongLong 7).bind fun x => (ofLongLong (-3)).bind fun y => mod x y) =
      some ⟨[1], false⟩ ∧
    ((ofLongLong 7).bind fun x => (ofLongLong (-3)).bind fun y => div x y) =
      some ⟨[2], true⟩ := by
  refine ⟨?_, by decide, by decide, by decide⟩
  have has : a.isNegative = false := by
    by_contra h
    have := ha.neg_iff.mp (by simpa using h)
    omega
  have hB0 := digitsVal_nonneg hb.1.2.1
  have hA0 := digitsVal_nonneg ha.1.2.1
  have hBpos : 0 < digitsVal b.number_digits := by
    rcases lt_or_eq_of_le hB0 with h | h
    · exact h
    · exfalso; apply hb0; unfold value; rw [← h]; simp
  obtain ⟨q, r, hdiv, hqw, hrw, hrs, hqv, hrv, hqs⟩ := divide_spec ha.1 has hb.1 hBpos
  have hva : value a = digitsVal a.number_digits := value_of_nonneg has
  have hvr : value r = digitsVal a.number_digits % digitsVal b.number_digits := by
    rw [value_of_nonneg hrs, hrv]
  have hmod0 := Int.emod_nonneg (digitsVal a.number_digits) (ne_of_gt hBpos)
  have hmodlt := Int.emod_lt_of_pos (digitsVal a.number_digits) hBpos
  have hdef := Int.emod_def (digitsVal a.number_digits) (digitsVal b.number_digits)
  refine ⟨q, r, hdiv, hqw, hrw, ?_, ?_, ?_, ?_⟩
  · rw [hva]
    cases hbs : b.isNegative
    · rw [value_of_nonneg hbs, Int.tdiv_eq_ediv hA0 hB0, ← hqv]
      rw [hbs] at hqs
      exact value_of_nonneg (by rw [hqs]; simp)
    · rw [value_of_neg hbs, Int.tdiv_neg, Int.tdiv_eq_ediv hA0 hB0, ← hqv]
      rw [hbs] at hqs
      unfold value
      rw [hqs]
      by_cases h0 : q.number_digits = [0]
      · simp [h0, digitsVal]
      · simp [h0]
  · rw [hvr, hva, hdef]
    have hq : value q * value b =
        digitsVal b.number_digits * (digitsVal a.number_digits / digitsVal b.number_digits) := by
      rw [← hqv]
      unfold value
      rw [hqs]
      by_cases h0 : q.number_digits = [0]
      · simp [h0, digitsVal]
      · cases hbs : b.isNegative <;> simp [h0] <;> ring
    rw [hq]
  · rw [hvr]; exact hmod0
  · rw [hvr]
    have : |value b| = digitsVal b.number_digits := by
      unfold value
      cases b.isNegative <;> simp [abs_of_pos hBpos]
    rw [this]; exact hmodlt

/-- Witness for C2 at `12395 / (-37)`. -/
theorem divide_nonneg_dividend_witness :
    WellFormed ⟨[5, 9, 3, 2, 1], false⟩ ∧ WellFormed ⟨[7, 3], true⟩ ∧
    ((∃ q r, divide ⟨[5, 9, 3, 2, 1], false⟩ ⟨[7, 3], true⟩ = some (q, r) ∧
      WellFormed q ∧ WellFormed r ∧
      value q = Int.tdiv (value ⟨[5, 9, 3, 2, 1], false⟩) (value ⟨[7, 3], true⟩) ∧
      value r = value ⟨[5, 9, 3, 2, 1], false⟩ - value q * value ⟨[7, 3], true⟩ ∧
      0 ≤ value r ∧ value r < |value ⟨[7, 3], true⟩|) ∧
    ((ofLongLong 0).bind fun x => (ofLongLong 5).bind fun y => divide x y) =
      some (⟨[0], false⟩, ⟨[0], false⟩) ∧
    ((ofLongLong 7).bind fun x => (ofLongLong (-3)).bind fun y => mod x y) =
      some ⟨[1], false⟩ ∧
    ((ofLongLong 7).bind fun x => (ofLongLong (-3)).bind fun y => div x y) =
      some ⟨[2], true⟩) :=
  ⟨by decide, by decide,
    divide_nonneg_dividend ⟨[5, 9, 3, 2, 1], false⟩ ⟨[7, 3], true⟩ (by decide) (by decide)
      (by decide) (by decide)⟩

/-- C1: at the dividend `-7` and the divisor `2` the function `divide` returns
the quotient `-3` and the remainder `-13`: the division identity fails
(`q * b + r` is `-19`, computed by the operators of the class as well) and
the remainder is not smaller in magnitude than the divisor. -/
theorem divide_negative_dividend :
    divide ⟨[7], true⟩ ⟨[2], false⟩ = some (⟨[3], true⟩, ⟨[3, 1], true⟩) ∧
    value ⟨[3], true⟩ * value ⟨[2], false⟩ + value ⟨[3, 1], true⟩ = -19 ∧
    value ⟨[7], true⟩ = -7 ∧
    ((mul ⟨[3], true⟩ ⟨[2], false⟩).bind fun p => add p ⟨[3, 1], true⟩) = some ⟨[9, 1], true⟩ ∧
    eq ⟨[9, 1], true⟩ ⟨[7], true⟩ = false ∧
    ¬ (|value ⟨[3, 1], true⟩| < |value ⟨[2], false⟩|) := by
  refine ⟨by decide, by decide, by decide, by decide, by decide, by decide⟩

/-- C3 fails on the code: dividing `7` by zero returns the pair `(0, 0)`, and
`/` and `%` return `0`; no error is raised. -/
theorem divide_by_zero_returns_pair :
    divide ⟨[7], false⟩ ⟨[0], false⟩ ≠ none ∧
    divide ⟨[7], false⟩ ⟨[0], false⟩ = some (⟨[0], false⟩, ⟨[0], false⟩) ∧
    div ⟨[7], false⟩ ⟨[0], false⟩ = some ⟨[0], false⟩ ∧
    mod ⟨[7], false⟩ ⟨[0], false⟩ = some ⟨[0], false⟩ := by
  refine ⟨by decide, by decide, by decide, by decide⟩

/-- C3 as amended: for every dividend, division by the value `BigNumber("0")`
raises no error; `divide` returns the pair `(0, 0)` and the operators `/` and
`%` return `0`. -/
theorem divide_by_zero_gives_zero (a : BigNumber) :
    divide a ⟨[0], false⟩ = some (⟨[0], false⟩, ⟨[0], false⟩) ∧
    div a ⟨[0], false⟩ = some ⟨[0], false⟩ ∧
    mod a ⟨[0], false⟩ = some ⟨[0], false⟩ := by
  have h : divide a ⟨[0], false⟩ = some (⟨[0], false⟩, ⟨[0], false⟩) := by
    unfold divide
    have hz : (ofString ['0']).toOption = some ⟨[0], false⟩ := rfl
    rw [hz]
    simp [eq]
  exact ⟨h, by simp [div, h], by simp [mod, h]⟩

/-! ## Construction from a machine integer -/

theorem digitLoop_spec : ∀ (fuel : Nat) (num : Int), 0 ≤ num → num < 10 ^ fuel →
    ∃ ds, digitLoop (fuel + 1) num = some ds ∧ InRange ds ∧ digitsVal ds = num ∧
      (num = 0 → ds = []) ∧ (0 < num → DigitsOK ds) := by
  intro fuel
  induction fuel with
  | zero =>
    intro num h0 h1
    have : num = 0 := by
      simp only [pow_zero] at h1
      omega
    subst this
    exact ⟨[], rfl, inRange_nil, rfl, fun _ => rfl, fun h => absurd h (by norm_num)⟩
  | succ fuel ih =>
    intro num h0 h1
    rw [digitLoop]
    by_cases hpos : num > 0
    · rw [if_pos hpos, tdiv_ten h0, tmod_ten h0]
      have hdiv : num / 10 < 10 ^ fuel := by
        rw [pow_succ] at h1
        omega
      obtain ⟨ds, hds, hr, hv, hz, hok⟩ := ih (num / 10) (by omega) hdiv
      have hr2 : InRange (num % 10 :: ds) := InRange.cons (by omega) hr
      refine ⟨num % 10 :: ds, by rw [hds]; rfl, hr2, ?_, fun h => absurd h (by omega), ?_⟩
      · simp only [digitsVal, hv]; omega
      · intro _
        refine ⟨by simp, hr2, ?_⟩
        intro hlast
        by_cases hq : num / 10 = 0
        · rw [hz hq] at hlast ⊢
          simpa using hlast
        · have hok2 := hok (by omega)
          exfalso
          have h2 : ds.getLast? = some 0 := by
            cases ds with
            | nil => exact absurd rfl hok2.1
            | cons e rest => rwa [List.getLast?_cons_cons] at hlast
          have := hok2.2.2 h2
          rw [this] at hv
          simp [digitsVal] at hv
          exact hq hv.symm
    · have : num = 0 := by omega
      subst this
      exact ⟨[], by simp [digitLoop], inRange_nil, rfl, fun _ => rfl,
        fun h => absurd h (by norm_num)⟩

theorem llabs_eq {n : Int} (h1 : -(2 ^ 63) < n) (h2 : n < 2 ^ 63) : llabs n = |n| := by
  unfold llabs wrap64
  norm_num at h1 h2 ⊢
  split
  · next h => rw [abs_of_neg h]; omega
  · next h => rw [abs_of_nonneg (by omega)]; omega

theorem ofLongLong_exact {n : Int} (h1 : -(2 ^ 63) < n) (h2 : n < 2 ^ 63) :
    ∃ x, ofLongLong n = some x ∧ WellFormed x ∧ value x = n := by
  unfold ofLongLong
  by_cases h0 : n = 0
  · subst h0
    exact ⟨⟨[0], false⟩, by simp, by decide, by decide⟩
  · rw [if_neg h0, llabs_eq h1 h2]
    have habs : 0 < |n| := abs_pos.mpr h0
    have hlt : |n| < 10 ^ 19 := by
      norm_num at h1 h2 ⊢
      rw [abs_lt]; constructor <;> omega
    obtain ⟨ds, hds, hr, hv, _, hok⟩ := digitLoop_spec 19 |n| (le_of_lt habs) hlt
    have hok2 := hok habs
    have hne0 : ds ≠ [0] := by
      intro h; rw [h] at hv; simp [digitsVal] at hv; omega
    refine ⟨⟨ds, decide (n < 0)⟩, by rw [hds]; rfl, ⟨hok2, fun h => absurd h hne0⟩, ?_⟩
    unfold value
    simp only [hv, decide_eq_true_eq]
    split
    · next h => rw [abs_of_neg h]; ring
    · next h => rw [abs_of_nonneg (by omega)]

/-- C11: at the input `-2^63` the absolute value taken in 64-bit arithmetic
is `-2^63` again, the digit loop pushes nothing and the value constructed has
an empty digit list: it is not well-formed and denotes `0`.  At the two ends
next to it the construction is exact. -/
theorem ofLongLong_min_not_wellFormed :
    ofLongLong (-(2 ^ 63)) = some ⟨[], true⟩ ∧ ¬ WellFormed ⟨[], true⟩ ∧
    value ⟨[], true⟩ = 0 ∧
    (ofLongLong (-(2 ^ 63) + 1)).map value = some (-(2 ^ 63) + 1) ∧
    (ofLongLong (2 ^ 63 - 1)).map value = some (2 ^ 63 - 1) := by
  refine ⟨by decide, by decide, by decide, by decide, by decide⟩

/-! ## The sign of a zero sum -/

/-- C16: the sum `-5 + 5` is returned as the digit `0` with the sign flag
set, which is not well-formed; with the operands exchanged the sign flag is
clear.  The difference `-5 - (-5)` has the sign flag set as well. -/
theorem add_tie_negative_zero :
    WellFormed ⟨[5], true⟩ ∧ WellFormed ⟨[5], false⟩ ∧
    add ⟨[5], true⟩ ⟨[5], false⟩ = some ⟨[0], true⟩ ∧ ¬ WellFormed ⟨[0], true⟩ ∧
    add ⟨[5], false⟩ ⟨[5], true⟩ = some ⟨[0], false⟩ ∧
    sub ⟨[5], true⟩ ⟨[5], true⟩ = some ⟨[0], true⟩ := by
  refine ⟨by decide, by decide, by decide, by decide, by decide, by decide⟩

/-- C17: dividing `-95` by `1` stores the quotient digit `10`: the quotient
returned has the digits `[10, 9]` and is not well-formed, and the remainder
is `-195`. -/
theorem divide_stores_digit_ten :
    WellFormed ⟨[5, 9], true⟩ ∧ WellFormed ⟨[1], false⟩ ∧
    divide ⟨[5, 9], true⟩ ⟨[1], false⟩ = some (⟨[10, 9], true⟩, ⟨[5, 9, 1], true⟩) ∧
    ¬ WellFormed ⟨[10, 9], true⟩ ∧ ¬ InRange [10, 9] := by
  refine ⟨by decide, by decide, by decide, by decide, by decide⟩

/-- C18: for `a = -5` the sum `a + (-a)` is the digit `0` with the sign flag
set, which `operator==` does not equate with `BigNumber(0)`. -/
theorem add_neg_self_not_zero :
    WellFormed ⟨[5], true⟩ ∧
    add ⟨[5], true⟩ (neg ⟨[5], true⟩) = some ⟨[0], true⟩ ∧
    ofLongLong 0 = some ⟨[0], false⟩ ∧
    eq ⟨[0], true⟩ ⟨[0], false⟩ = false := by
  refine ⟨by decide, by decide, by decide, by decide⟩

/-- C19: `-5 + 5` and `5 + -5` are returned with different sign flags, so
`operator==` does not equate them. -/
theorem add_not_commutative_at_tie :
    WellFormed ⟨[5], true⟩ ∧ WellFormed ⟨[5], false⟩ ∧
    add ⟨[5], true⟩ ⟨[5], false⟩ = some ⟨[0], true⟩ ∧
    add ⟨[5], false⟩ ⟨[5], true⟩ = some ⟨[0], false⟩ ∧
    eq ⟨[0], true⟩ ⟨[0], false⟩ = false := by
  refine ⟨by decide, by decide, by decide, by decide, by decide⟩

/-- C20: for `a = 5`, `b = -8`, `c = 3` the sum `(a + b) + c` is the digit `0`
with the sign flag set and `a + (b + c)` is the digit `0` with the sign flag
clear, so `operator==` does not equate them. -/
theorem add_not_associative_at_tie :
    WellFormed ⟨[5], false⟩ ∧ WellFormed ⟨[8], true⟩ ∧ WellFormed ⟨[3], false⟩ ∧
    ((add ⟨[5], false⟩ ⟨[8], true⟩).bind fun s => add s ⟨[3], false⟩) = some ⟨[0], true⟩ ∧
    ((add ⟨[8], true⟩ ⟨[3], false⟩).bind fun s => add ⟨[5], false⟩ s) = some ⟨[0], false⟩ ∧
    eq ⟨[0], true⟩ ⟨[0], false⟩ = false := by
  refine ⟨by decide, by decide, by decide, by decide, by decide, by decide⟩

/-! ## The test vectors -/

set_option maxRecDepth 100000 in
theorem num1Text_digits : ∀ c ∈ num1Text, c ∈ decimalDigits := by decide

set_option maxRecDepth 100000 in
theorem mod512Text_digits : ∀ c ∈ mod512Text, c ∈ decimalDigits := by decide

set_option maxRecDepth 100000 in
theorem mod512Text_value : textValue mod512Text = 2 ^ 512 := by decide

set_option maxRecDepth 100000 in
theorem num1Text_bounds : 0 ≤ textValue num1Text ∧ textValue num1Text < textValue mod512Text := by
  decide

/-! ## Modular addition and multiplication -/

theorem divide_of_zero_digits {a b : BigNumber} (ha : a.number_digits = [0])
    (hb : DigitsOK b.number_digits) (hb0 : 0 < digitsVal b.number_digits) :
    divide a b = some (⟨[0], false⟩, ⟨[0], false⟩) := by
  have hne : eq b ⟨[0], false⟩ = false := by
    have : b.number_digits ≠ [0] := by
      intro h0; rw [h0] at hb0; simp [digitsVal] at hb0
    simp [eq, this]
  have htrim : trimLeadingZeros ⟨0 :: new.number_digits, a.isNegative⟩ = ⟨[0], false⟩ := by
    cases a.isNegative <;> rfl
  obtain ⟨q, hq, hq0, _, hqle, _⟩ := @searchLoop_spec b ⟨[0], false⟩ hb
    (by decide) rfl 12 0 10 0
    (le_refl _) (le_refl _) (by norm_num) (by norm_num)
    (fun k _ h2 => absurd h2 (by omega)) (fun k h1 h2 => absurd h2 (by omega))
    (Or.inl ⟨rfl, rfl⟩)
  have hqz : q = 0 := by
    simp only [digitsVal, mul_zero, add_zero] at hqle
    by_contra hne0
    have h1 : 1 ≤ q := by omega
    have : digitsVal b.number_digits * 1 ≤ digitsVal b.number_digits * q :=
      mul_le_mul_of_nonneg_left h1 (le_of_lt hb0)
    omega
  subst hqz
  obtain ⟨c, hc, hcw, hcv, _⟩ := mul_spec (a := absolute b) (b := ⟨[0], false⟩) hb (by decide)
  have hcz : c = ⟨[0], false⟩ := by
    apply wellFormed_eq_of_value_eq hcw (by decide)
    rw [hcv]
    simp [value, digitsVal]
  subst hcz
  have h0 : ofLongLong 0 = some ⟨[0], false⟩ := by decide
  have hsub : sub ⟨[0], false⟩ ⟨[0], false⟩ = some ⟨[0], false⟩ := by decide
  have hz : (ofString ['0']).toOption = some ⟨[0], false⟩ := rfl
  unfold divide
  rw [hz]
  simp only [Option.some_bind, hne, Bool.false_eq_true, if_false, ha, List.reverse_singleton,
    List.length_singleton]
  rw [divLoop, htrim]
  simp only [hq, h0, hc, hsub, Option.some_bind, divLoop, Option.map_some']
  have hres : resize new.number_digits 1 0 = [0] := rfl
  rw [hres]
  have ht2 : trimLeadingZeros ⟨[0, 0], a.isNegative != b.isNegative⟩ = ⟨[0], false⟩ := by
    cases (a.isNegative != b.isNegative) <;> rfl
  rw [ht2]
  rfl

theorem mod_spec {a b : BigNumber} (ha : DigitsOK a.number_digits)
    (has : a.isNegative = false ∨ a.number_digits = [0])
    (hb : DigitsOK b.number_digits) (hb0 : 0 < digitsVal b.number_digits) :
    ∃ r, mod a b = some r ∧ WellFormed r ∧ r.isNegative = false ∧
      digitsVal r.number_digits = digitsVal a.number_digits % digitsVal b.number_digits := by
  by_cases hz : a.number_digits = [0]
  · refine ⟨⟨[0], false⟩, ?_, by decide, rfl, ?_⟩
    · simp [mod, divide_of_zero_digits hz hb hb0]
    · rw [hz]; simp [digitsVal]
  · have hs : a.isNegative = false := by
      rcases has with h | h
      · exact h
      · exact absurd h hz
    obtain ⟨q, r, hdiv, _, hrw, hrs, _, hrv, _⟩ := divide_spec ha hs hb hb0
    exact ⟨r, by simp [mod, hdiv], hrw, hrs, hrv⟩

theorem sign_of_nonneg_value {x : BigNumber} (hx : DigitsOK x.number_digits)
    (hv : 0 ≤ value x) : x.isNegative = false ∨ x.number_digits = [0] := by
  cases hs : x.isNegative
  · exact Or.inl rfl
  · right
    rw [value_of_neg hs] at hv
    have := digitsVal_nonneg hx.2.1
    exact digitsVal_eq_zero hx (by omega)

theorem digitsVal_of_nonneg_value {x : BigNumber} (hx : DigitsOK x.number_digits)
    (hv : 0 ≤ value x) : digitsVal x.number_digits = value x := by
  rcases sign_of_nonneg_value hx hv with h | h
  · rw [value_of_nonneg h]
  · unfold value; rw [h]; simp [digitsVal]

theorem mod_of_nonneg_value {s m : BigNumber} (hs : DigitsOK s.number_digits)
    (hv : 0 ≤ value s) (hm : WellFormed m) (hm0 : 0 < value m) :
    ∃ r, mod s m = some r ∧ WellFormed r ∧ value r = value s % value m ∧
      0 ≤ value r ∧ value r < value m := by
  have hmv : digitsVal m.number_digits = value m :=
    digitsVal_of_nonneg_value hm.1 (le_of_lt hm0)
  obtain ⟨r, hr, hrw, hrs, hrv⟩ := mod_spec hs (sign_of_nonneg_value hs hv) hm.1
    (by rw [hmv]; exact hm0)
  rw [digitsVal_of_nonneg_value hs hv, hmv] at hrv
  have hrval : value r = value s % value m := by rw [value_of_nonneg hrs, hrv]
  exact ⟨r, hr, hrw, hrval, by rw [hrval]; exact Int.emod_nonneg _ (ne_of_gt hm0),
    by rw [hrval]; exact Int.emod_lt_of_pos _ hm0⟩

theorem modAddition_spec {a b m : BigNumber} (ha : WellFormed a) (hb : WellFormed b)
    (hm : WellFormed m) (hm0 : 0 < value m) (hsum : 0 ≤ value a + value b) :
    ∃ r, modAddition a b m = some r ∧ WellFormed r ∧
      value r = (value a + value b) % value m ∧ 0 ≤ value r ∧ value r < value m := by
  obtain ⟨s, hs, hsd, hsv⟩ := add_spec ha.1 hb.1
  obtain ⟨r, hr, hrest⟩ := mod_of_nonneg_value hsd (by rw [hsv]; exact hsum) hm hm0
  rw [hsv] at hrest
  exact ⟨r, by simp [modAddition, hs, hr], hrest⟩

theorem modMultiplication_spec {a b m : BigNumber} (ha : WellFormed a) (hb : WellFormed b)
    (hm : WellFormed m) (hm0 : 0 < value m) (hprod : 0 ≤ value a * value b) :
    ∃ r, modMultiplication a b m = some r ∧ WellFormed r ∧
      value r = (value a * value b) % value m ∧ 0 ≤ value r ∧ value r < value m := by
  obtain ⟨p, hp, hpw, hpv, _⟩ := mul_spec ha.1 hb.1
  obtain ⟨r, hr, hrest⟩ := mod_of_nonneg_value hpw.1 (by rw [hpv]; exact hprod) hm hm0
  rw [hpv] at hrest
  exact ⟨r, by simp [modMultiplication, hp, hr], hrest⟩

theorem testVectors_parse :
    ∃ n1 m512, ofString num1Text = Except.ok n1 ∧ ofString mod512Text = Except.ok m512 ∧
      WellFormed n1 ∧ WellFormed m512 ∧ value m512 = 2 ^ 512 ∧
      0 ≤ value n1 ∧ value n1 < value m512 := by
  obtain ⟨n1, h1, hw1, hv1⟩ := ofString_wellFormed [] num1Text (Or.inl rfl)
    (by decide) num1Text_digits
  obtain ⟨m, h2, hw2, hv2⟩ := ofString_wellFormed [] mod512Text (Or.inl rfl)
    (by decide) mod512Text_digits
  have hs1 : signedValue [] num1Text = textValue num1Text := by simp [signedValue]
  have hs2 : signedValue [] mod512Text = textValue mod512Text := by simp [signedValue]
  rw [hs1] at hv1
  rw [hs2] at hv2
  refine ⟨n1, m, h1, h2, hw1, hw2, by rw [hv2, mod512Text_value], ?_, ?_⟩
  · rw [hv1]; exact num1Text_bounds.1
  · rw [hv1, hv2]; exact num1Text_bounds.2

/-- C14: for well-formed `a`, `b` and `m` with `m` positive and the sum of
the values of `a` and `b` not negative, `modAddition` returns the well-formed
value denoting that sum modulo `m`, which lies from `0` up to `m`; and for
the 512-bit test vector `num1`, `num1.modAddition(0, 2^512) == num1`. -/
theorem modAddition_exact (a b m : BigNumber) (ha : WellFormed a) (hb : WellFormed b)
    (hm : WellFormed m) (hm0 : 0 < value m) (hsum : 0 ≤ value a + value b) :
    (∃ r, modAddition a b m = some r ∧ WellFormed r ∧
      value r = (value a + value b) % value m ∧ 0 ≤ value r ∧ value r < value m) ∧
    (∃ n1 z m512 r, ofString num1Text = Except.ok n1 ∧ ofString ['0'] = Except.ok z ∧
      ofString mod512Text = Except.ok m512 ∧ value m512 = 2 ^ 512 ∧
      modAddition n1 z m512 = some r ∧ eq r n1 = true) := by
  refine ⟨modAddition_spec ha hb hm hm0 hsum, ?_⟩
  obtain ⟨n1, m512, h1, h2, hw1, hw2, hv2, hn0, hnlt⟩ := testVectors_parse
  have hz : WellFormed (⟨[0], false⟩ : BigNumber) := by decide
  have hzv : value (⟨[0], false⟩ : BigNumber) = 0 := by decide
  obtain ⟨r, hr, hrw, hrv, _, _⟩ := modAddition_spec hw1 hz hw2 (by omega)
    (by rw [hzv]; omega)
  have : r = n1 := by
    apply wellFormed_eq_of_value_eq hrw hw1
    rw [hrv, hzv, add_zero, Int.emod_eq_of_lt hn0 hnlt]
  subst this
  exact ⟨r, ⟨[0], false⟩, m512, r, h1, rfl, h2, hv2, hr, by simp [eq]⟩

/-- Witness for C14 at `-5 + 9` modulo `3`. -/
theorem modAddition_exact_witness :
    WellFormed ⟨[5], true⟩ ∧ WellFormed ⟨[9], false⟩ ∧ WellFormed ⟨[3], false⟩ ∧
    ((∃ r, modAddition ⟨[5], true⟩ ⟨[9], false⟩ ⟨[3], false⟩ = some r ∧ WellFormed r ∧
      value r = (value ⟨[5], true⟩ + value ⟨[9], false⟩) % value ⟨[3], false⟩ ∧
      0 ≤ value r ∧ value r < value ⟨[3], false⟩) ∧
    (∃ n1 z m512 r, ofString num1Text = Except.ok n1 ∧ ofString ['0'] = Except.ok z ∧
      ofString mod512Text = Except.ok m512 ∧ value m512 = 2 ^ 512 ∧
      modAddition n1 z m512 = some r ∧ eq r n1 = true)) :=
  ⟨by decide, by decide, by decide,
    modAddition_exact ⟨[5], true⟩ ⟨[9], false⟩ ⟨[3], false⟩ (by decide) (by decide) (by decide)
      (by decide) (by decide)⟩

/-- C15: for well-formed `a`, `b` and `m` with `m` positive and the product
of the values of `a` and `b` not negative, `modMultiplication` returns the
well-formed value denoting that product modulo `m`, which lies from `0` up
to `m`; and for the 512-bit test vector `num1`,
`num1.modMultiplication(0, 2^512) == 0`. -/
theorem modMultiplication_exact (a b m : BigNumber) (ha : WellFormed a) (hb : WellFormed b)
    (hm : WellFormed m) (hm0 : 0 < value m) (hprod : 0 ≤ value a * value b) :
    (∃ r, modMultiplication a b m = some r ∧ WellFormed r ∧
      value r = (value a * value b) % value m ∧ 0 ≤ value r ∧ value r < value m) ∧
    (∃ n1 z m512 r, ofString num1Text = Except.ok n1 ∧ ofString ['0'] = Except.ok z ∧
      ofString mod512Text = Except.ok m512 ∧ value m512 = 2 ^ 512 ∧
      modMultiplication n1 z m512 = some r ∧ eq r z = true) := by
  refine ⟨modMultiplication_spec ha hb hm hm0 hprod, ?_⟩
  obtain ⟨n1, m512, h1, h2, hw1, hw2, hv2, hn0, hnlt⟩ := testVectors_parse
  have hz : WellFormed (⟨[0], false⟩ : BigNumber) := by decide
  have hzv : value (⟨[0], false⟩ : BigNumber) = 0 := by decide
  obtain ⟨r, hr, hrw, hrv, _, _⟩ := modMultiplication_spec hw1 hz hw2 (by omega)
    (by rw [hzv]; simp)
  have : r = ⟨[0], false⟩ := by
    apply wellFormed_eq_of_value_eq hrw hz
    rw [hrv, hzv, mul_zero, Int.zero_emod]
  subst this
  exact ⟨n1, ⟨[0], false⟩, m512, ⟨[0], false⟩, h1, rfl, h2, hv2, hr, by decide⟩

/-- Witness for C15 at `-5 * -9` modulo `7`. -/
theorem modMultiplication_exact_witness :
    WellFormed ⟨[5], true⟩ ∧ WellFormed ⟨[9], true⟩ ∧ WellFormed ⟨[7], false⟩ ∧
    ((∃ r, modMultiplication ⟨[5], true⟩ ⟨[9], true⟩ ⟨[7], false⟩ = some r ∧ WellFormed r ∧
      value r = (value ⟨[5], true⟩ * value ⟨[9], true⟩) % value ⟨[7], false⟩ ∧
      0 ≤ value r ∧ value r < value ⟨[7], false⟩) ∧
    (∃ n1 z m512 r, ofString num1Text = Except.ok n1 ∧ ofString ['0'] = Except.ok z ∧
      ofString mod512Text = Except.ok m512 ∧ value m512 = 2 ^ 512 ∧
      modMultiplication n1 z m512 = some r ∧ eq r z = true)) :=
  ⟨by decide, by decide, by decide,
    modMultiplication_exact ⟨[5], true⟩ ⟨[9], true⟩ ⟨[7], false⟩ (by decide) (by decide)
      (by decide) (by decide) (by decide)⟩

/-! ## The modular inverse -/

theorem div_mod_spec {a m : BigNumber} (ha : WellFormed a) (hm : WellFormed m)
    (ha0 : 0 ≤ value a) (hm0 : 0 < value m) :
    ∃ q r, div a m = some q ∧ mod a m = some r ∧ WellFormed q ∧ WellFormed r ∧
      value q = value a / value m ∧ value r = value a % value m := by
  have has : a.isNegative = false := by
    by_contra h
    have := ha.neg_iff.mp (by simpa using h)
    omega
  have hms : m.isNegative = false := by
    by_contra h
    have := hm.neg_iff.mp (by simpa using h)
    omega
  have hmv : digitsVal m.number_digits = value m := (value_of_nonneg hms).symm
  have hav : digitsVal a.number_digits = value a := (value_of_nonneg has).symm
  obtain ⟨q, r, hdiv, hqw, hrw, hrs, hqv, hrv, hqs⟩ := divide_spec ha.1 has hm.1
    (by rw [hmv]; exact hm0)
  have hqs2 : q.isNegative = false := by
    rw [hqs, hms]; simp
  refine ⟨q, r, by simp [div, hdiv], by simp [mod, hdiv], hqw, hrw, ?_, ?_⟩
  · rw [value_of_nonneg hqs2, hqv, hav, hmv]
  · rw [value_of_nonneg hrs, hrv, hav, hmv]

theorem lt_zero_eq_sign {x : BigNumber} (hx : DigitsOK x.number_digits) :
    lt x ⟨[0], false⟩ = x.isNegative := by
  cases hs : x.isNegative
  · rw [lt_spec hx (by decide) (by rw [hs]), hs]
    have := digitsVal_nonneg hx.2.1
    simp [digitsVal]
    omega
  · unfold lt
    rw [if_pos (by rw [hs]; decide), hs]

theorem wellFormed_of_value_ne_zero {x : BigNumber} (hx : DigitsOK x.number_digits)
    (hv : value x ≠ 0) : WellFormed x := by
  refine ⟨hx, ?_⟩
  intro h0
  exfalso
  apply hv
  unfold value
  rw [h0]
  simp [digitsVal]

theorem abs_sub_mul_of_alternating {x0 x1 q : Int} (hq : 0 ≤ q) (halt : x0 * x1 ≤ 0) :
    |x1 - q * x0| = |x1| + q * |x0| := by
  rcases lt_trichotomy x0 0 with h | h | h
  · have h1 : 0 ≤ x1 := by
      by_contra hneg
      have : 0 < x0 * x1 := mul_pos_of_neg_of_neg h (by omega)
      omega
    have h2 : q * x0 ≤ 0 := mul_nonpos_of_nonneg_of_nonpos hq (le_of_lt h)
    rw [abs_of_nonneg (by omega : 0 ≤ x1 - q * x0), abs_of_nonneg h1, abs_of_neg h]
    ring
  · subst h; simp
  · have h1 : x1 ≤ 0 := by
      by_contra hpos
      have : 0 < x0 * x1 := mul_pos h (by omega)
      omega
    have h2 : 0 ≤ q * x0 := mul_nonneg hq (le_of_lt h)
    rw [abs_of_nonpos (by omega : x1 - q * x0 ≤ 0), abs_of_nonpos h1, abs_of_pos h]
    ring

theorem not_coprime_zero {a : Int} (ha : 1 < a) : ¬ IsCoprime a 0 := by
  rintro ⟨u, v, h⟩
  have h1 : u * a = 1 := by linarith
  have hdvd : a ∣ 1 := ⟨u, by linarith⟩
  have := Int.le_of_dvd (by norm_num) hdvd
  omega

theorem inverse_of_bezout {A x M y : Int} (hM : 1 < M) (h : 1 = x * A + y * M) :
    (A * x) % M = 1 := by
  have : A * x = 1 + (-y) * M := by linear_combination -h
  rw [this, Int.add_mul_emod_self, Int.emod_eq_of_lt (by norm_num) hM]

theorem modInverseLoop_spec {m0 : BigNumber} (hm0 : WellFormed m0) (A : Int)
    (hM : 1 < value m0) :
    ∀ (fuel : Nat) (a m x0 x1 : BigNumber),
    WellFormed a → WellFormed m → DigitsOK x0.number_digits → DigitsOK x1.number_digits →
    1 ≤ value a → 0 ≤ value m → value m + 2 ≤ (fuel : Int) →
    IsCoprime (value a) (value m) →
    (∃ y, value a = value x1 * A + y * value m0) →
    (∃ y, value m = value x0 * A + y * value m0) →
    value x0 * value x1 ≤ 0 →
    |value x1| * value m + |value x0| * value a = value m0 →
    |value x1| < value m0 →
    ∃ x, modInverseLoop m0 fuel a m x0 x1 = some x ∧ WellFormed x ∧
      0 ≤ value x ∧ value x < value m0 ∧ (A * value x) % value m0 = 1 := by
  intro fuel
  induction fuel with
  | zero => intro a m x0 x1 _ _ _ _ _ hm _; intros; omega
  | succ fuel ih =>
    intro a m x0 x1 ha hm hx0 hx1 ha1 hmn hfuel hcop hba hbm halt hsum hbound
    have hone : ofLongLong 1 = some ⟨[1], false⟩ := by decide
    have hzero : ofLongLong 0 = some ⟨[0], false⟩ := by decide
    have hgt : gt a ⟨[1], false⟩ = true ↔ 1 < value a := by
      unfold gt
      rw [lt_iff (by decide) ha]
      simp [value, digitsVal]
    rw [modInverseLoop]
    simp only [hone, hzero, Option.some_bind]
    by_cases hcond : 1 < value a
    · rw [if_pos (hgt.mpr hcond)]
      have hmpos : 0 < value m := by
        rcases lt_or_eq_of_le hmn with h | h
        · exact h
        · exfalso
          rw [← h] at hcop
          exact not_coprime_zero hcond hcop
      obtain ⟨q, r, hq, hr, hqw, hrw, hqv, hrv⟩ := div_mod_spec ha hm (by omega) hmpos
      obtain ⟨p, hp, hpw, hpv, _⟩ := mul_spec hqw.1 hx0
      obtain ⟨x0n, hx0n, hx0nd, hx0nv⟩ := sub_spec hx1 hpw.1
      simp only [hq, hr, hp, hx0n, Option.some_bind]
      have hq0 : 0 ≤ value q := by rw [hqv]; exact Int.ediv_nonneg (by omega) (le_of_lt hmpos)
      have hr0 : 0 ≤ value r := by rw [hrv]; exact Int.emod_nonneg _ (ne_of_gt hmpos)
      have hrlt : value r < value m := by rw [hrv]; exact Int.emod_lt_of_pos _ hmpos
      have hdm : value a = value m * value q + value r := by
        rw [hqv, hrv]
        have := Int.emod_add_ediv (value a) (value m)
        linarith
      have hxn : value x0n = value x1 - value q * value x0 := by rw [hx0nv, hpv]
      have habs := @abs_sub_mul_of_alternating (value x0) (value x1) (value q) hq0 halt
      have hx0abs := abs_nonneg (value x0)
      have hx1abs := abs_nonneg (value x1)
      apply ih m r x0n x0 hm hrw hx0nd hx0 (by omega) hr0 (by omega)
      · obtain ⟨u, v, huv⟩ := hcop
        exact ⟨u * value q + v, u, by rw [hdm] at huv; linear_combination huv⟩
      · exact hbm
      · obtain ⟨y1, hy1⟩ := hba
        obtain ⟨y0, hy0⟩ := hbm
        refine ⟨y1 - value q * y0, ?_⟩
        rw [hxn]
        linear_combination hy1 - hdm - value q * hy0
      · rw [hxn]
        have hsq : 0 ≤ value q * (value x0 * value x0) :=
          mul_nonneg hq0 (mul_self_nonneg _)
        nlinarith
      · rw [hxn, habs]
        rw [hdm] at hsum
        linear_combination hsum
      · have h1 : |value x0| * 2 ≤ |value x0| * value a :=
          mul_le_mul_of_nonneg_left (by omega) hx0abs
        have h2 : 0 ≤ |value x1| * value m := mul_nonneg hx1abs hmn
        omega
    · rw [if_neg (fun h => hcond (hgt.mp h))]
      have ha1e : value a = 1 := by omega
      obtain ⟨y, hy⟩ := hba
      rw [ha1e] at hy
      have hx1ne : value x1 ≠ 0 := by
        intro h0
        rw [h0] at hy
        have hdvd : value m0 ∣ 1 := ⟨y, by linarith⟩
        have := Int.le_of_dvd (by norm_num) hdvd
        omega
      rw [lt_zero_eq_sign hx1]
      cases hs : x1.isNegative
      · simp only [Bool.false_eq_true, if_false]
        have hv : value x1 = digitsVal x1.number_digits := value_of_nonneg hs
        have hnn := digitsVal_nonneg hx1.2.1
        have hb2 : value x1 < value m0 := by
          rw [abs_of_nonneg (by omega)] at hbound; exact hbound
        exact ⟨x1, rfl, wellFormed_of_value_ne_zero hx1 hx1ne, by omega, hb2,
          inverse_of_bezout hM hy⟩
      · simp only [if_true]
        have hv : value x1 = - digitsVal x1.number_digits := value_of_neg hs
        have hnn := digitsVal_nonneg hx1.2.1
        have hneg : value x1 < 0 := by omega
        rw [abs_of_neg hneg] at hbound
        obtain ⟨x, hx, hxd, hxv⟩ := add_spec hx1 hm0.1
        refine ⟨x, hx, wellFormed_of_value_ne_zero hxd (by omega), by omega, by omega, ?_⟩
        rw [hxv]
        exact inverse_of_bezout (y := y - A) hM (by linear_combination hy)

theorem modInverse_spec {a m : BigNumber} (ha : WellFormed a) (hm : WellFormed m)
    (ha1 : 1 ≤ value a) (hm1 : 1 < value m) (hgcd : Int.gcd (value a) (value m) = 1)
    (fuel : Nat) (hfuel : value m + 2 ≤ (fuel : Int)) :
    ∃ x, modInverse fuel a m = some x ∧ WellFormed x ∧
      0 ≤ value x ∧ value x < value m ∧ (value a * value x) % value m = 1 := by
  have hone : ofLongLong 1 = some ⟨[1], false⟩ := by decide
  have hzero : ofLongLong 0 = some ⟨[0], false⟩ := by decide
  have hne : eq m ⟨[1], false⟩ = false := by
    have : m ≠ ⟨[1], false⟩ := by
      rintro rfl
      simp [value, digitsVal] at hm1
    cases m
    simp only [eq, Bool.and_eq_false_imp, decide_eq_true_eq, decide_eq_false_iff_not]
    intro h1 h2
    apply this
    simp_all
  unfold modInverse
  simp only [hone, hzero, Option.some_bind, hne, Bool.false_eq_true, if_false]
  have h1 : value (⟨[1], false⟩ : BigNumber) = 1 := by decide
  have h0 : value (⟨[0], false⟩ : BigNumber) = 0 := by decide
  exact modInverseLoop_spec hm (value a) hm1 fuel a m ⟨[0], false⟩ ⟨[1], false⟩ ha hm
    (by decide) (by decide) ha1 (by linarith) hfuel (Int.isCoprime_iff_gcd_eq_one.mpr hgcd)
    ⟨0, by rw [h1]; ring⟩ ⟨1, by rw [h0]; ring⟩
    (by rw [h0]; simp)
    (by rw [h0, h1]; simp)
    (by rw [h1]; simpa using hm1)

theorem eq_false_of_ne {a b : BigNumber} (h : a ≠ b) : eq a b = false := by
  cases a
  cases b
  simp only [eq, Bool.and_eq_false_imp, decide_eq_true_eq, decide_eq_false_iff_not]
  intro h1 h2
  apply h
  simp_all

theorem modInverse_of_one {m : BigNumber} (hne : eq m ⟨[1], false⟩ = false) (n : Nat) :
    modInverse (n + 1) ⟨[1], false⟩ m = some ⟨[1], false⟩ := by
  have hone : ofLongLong 1 = some ⟨[1], false⟩ := by decide
  have hzero : ofLongLong 0 = some ⟨[0], false⟩ := by decide
  have hgt : gt ⟨[1], false⟩ ⟨[1], false⟩ = false := by decide
  have hlt : lt ⟨[1], false⟩ ⟨[0], false⟩ = false := by decide
  unfold modInverse
  simp only [hone, hzero, Option.some_bind, hne, Bool.false_eq_true, if_false]
  rw [modInverseLoop]
  simp only [hone, hzero, Option.some_bind, hgt, hlt, Bool.false_eq_true, if_false]

/-- C12 fails on the code for a negative operand: `-1` and `3` are coprime,
`modInverse` skips its loop and returns `1`, and `(-1 * 1) % 3` is returned as
`-1`, which `operator==` does not equate with `1`. -/
theorem modInverse_negative_operand :
    WellFormed ⟨[1], true⟩ ∧ WellFormed ⟨[3], false⟩ ∧ 1 < value ⟨[3], false⟩ ∧
    Int.gcd (value ⟨[1], true⟩) (value ⟨[3], false⟩) = 1 ∧
    modInverse 1 ⟨[1], true⟩ ⟨[3], false⟩ = some ⟨[1], false⟩ ∧
    modInverse 100 ⟨[1], true⟩ ⟨[3], false⟩ = some ⟨[1], false⟩ ∧
    mul ⟨[1], true⟩ ⟨[1], false⟩ = some ⟨[1], true⟩ ∧
    mod ⟨[1], true⟩ ⟨[3], false⟩ = some ⟨[1], true⟩ ∧
    ofLongLong 1 = some ⟨[1], false⟩ ∧
    eq ⟨[1], true⟩ ⟨[1], false⟩ = false := by
  refine ⟨by decide, by decide, by decide, by decide, by decide, by decide, by decide,
    by decide, by decide, by decide⟩

/-- C12 as amended: for well-formed `a` and `m` with `a` at least `1`, `m`
above `1` and `gcd(a, m) = 1`, and an iteration budget above the value of
`m`, `modInverse` returns a value `x` for which `(a * x) % m == 1` under the
operators of the class. -/
theorem modInverse_times_operand (a m : BigNumber) (fuel : Nat) (ha : WellFormed a)
    (hm : WellFormed m) (ha1 : 1 ≤ value a) (hm1 : 1 < value m)
    (hgcd : Int.gcd (value a) (value m) = 1) (hfuel : value m + 2 ≤ (fuel : Int)) :
    ∃ x p r one, modInverse fuel a m = some x ∧ mul a x = some p ∧ mod p m = some r ∧
      ofLongLong 1 = some one ∧ eq r one = true := by
  obtain ⟨x, hx, hxw, hx0, _, hinv⟩ := modInverse_spec ha hm ha1 hm1 hgcd fuel hfuel
  obtain ⟨p, hp, hpw, hpv, _⟩ := mul_spec ha.1 hxw.1
  have hp0 : 0 ≤ value p := by rw [hpv]; exact mul_nonneg (by omega) hx0
  obtain ⟨r, hr, hrw, hrv, _, _⟩ := mod_of_nonneg_value hpw.1 hp0 hm (by omega)
  have : r = ⟨[1], false⟩ := by
    apply wellFormed_eq_of_value_eq hrw (by decide)
    rw [hrv, hpv, hinv]
    decide
  subst this
  exact ⟨x, p, ⟨[1], false⟩, ⟨[1], false⟩, hx, hp, hr, by decide, by decide⟩

/-- Witness for the amended C12 at `a = 17`, `m = 5`. -/
theorem modInverse_times_operand_witness :
    WellFormed ⟨[7, 1], false⟩ ∧ WellFormed ⟨[5], false⟩ ∧
    ∃ x p r one, modInverse 7 ⟨[7, 1], false⟩ ⟨[5], false⟩ = some x ∧
      mul ⟨[7, 1], false⟩ x = some p ∧ mod p ⟨[5], false⟩ = some r ∧
      ofLongLong 1 = some one ∧ eq r one = true :=
  ⟨by decide, by decide,
    modInverse_times_operand ⟨[7, 1], false⟩ ⟨[5], false⟩ 7 (by decide) (by decide) (by decide)
      (by decide) (by decide) (by decide)⟩

/-- C13: for well-formed `a` at least `1` and `m` above `1` with
`gcd(a, m) = 1` (`a` may exceed `m`), and an iteration budget above the value
of `m`, `modInverse` returns the well-formed canonical inverse: a value from
`0` up to `m` whose product with `a` is `1` modulo `m`, so the single
addition of the modulus has made a negative coefficient non-negative; and
`BigNumber("1").modInverse(2^512) == 1` for every positive budget. -/
theorem modInverse_canonical (a m : BigNumber) (fuel : Nat) (ha : WellFormed a)
    (hm : WellFormed m) (ha1 : 1 ≤ value a) (hm1 : 1 < value m)
    (hgcd : Int.gcd (value a) (value m) = 1) (hfuel : value m + 2 ≤ (fuel : Int)) :
    (∃ x, modInverse fuel a m = some x ∧ WellFormed x ∧
      0 ≤ value x ∧ value x < value m ∧ (value a * value x) % value m = 1) ∧
    (∃ one m512, ofString ['1'] = Except.ok one ∧ ofString mod512Text = Except.ok m512 ∧
      value m512 = 2 ^ 512 ∧
      ∀ n : Nat, ∃ x, modInverse (n + 1) one m512 = some x ∧ eq x one = true) := by
  refine ⟨modInverse_spec ha hm ha1 hm1 hgcd fuel hfuel, ?_⟩
  obtain ⟨n1, m512, _, h2, _, hw2, hv2, _, _⟩ := testVectors_parse
  have hne : eq m512 ⟨[1], false⟩ = false := by
    apply eq_false_of_ne
    rintro rfl
    have h1 : value (⟨[1], false⟩ : BigNumber) = 1 := by decide
    rw [h1] at hv2
    exact absurd hv2 (ne_of_lt (one_lt_pow₀ (by norm_num) (by norm_num)))
  exact ⟨⟨[1], false⟩, m512, rfl, h2, hv2,
    fun n => ⟨⟨[1], false⟩, modInverse_of_one hne n, by decide⟩⟩

/-- Witness for C13 at `a = 17`, `m = 5`, where the operand exceeds the
modulus. -/
theorem modInverse_canonical_witness :
    WellFormed ⟨[7, 1], false⟩ ∧ WellFormed ⟨[5], false⟩ ∧
    ((∃ x, modInverse 7 ⟨[7, 1], false⟩ ⟨[5], false⟩ = some x ∧ WellFormed x ∧
      0 ≤ value x ∧ value x < value ⟨[5], false⟩ ∧
      (value ⟨[7, 1], false⟩ * value x) % value ⟨[5], false⟩ = 1) ∧
    (∃ one m512, ofString ['1'] = Except.ok one ∧ ofString mod512Text = Except.ok m512 ∧
      value m512 = 2 ^ 512 ∧
      ∀ n : Nat, ∃ x, modInverse (n + 1) one m512 = some x ∧ eq x one = true)) :=
  ⟨by decide, by decide,
    modInverse_canonical ⟨[7, 1], false⟩ ⟨[5], false⟩ 7 (by decide) (by decide) (by decide)
      (by decide) (by decide) (by decide)⟩

/-! ## Negation and the sign rule of multiplication -/

theorem value_neg (x : BigNumber) : value (neg x) = - value x := by
  unfold value neg
  cases x.isNegative <;> simp

theorem eq_self (x : BigNumber) : eq x x = true := by simp [eq]

theorem eq_iff (a b : BigNumber) : eq a b = true ↔ a = b := by
  cases a
  cases b
  simp [eq]

theorem mul_neg_of_ne_zero {a b : BigNumber} (ha : WellFormed a) (hb : WellFormed b)
    (h0 : value a * value b ≠ 0) :
    ∃ r p, mul (neg a) b = some r ∧ mul a b = some p ∧ eq r (neg p) = true := by
  obtain ⟨p, hp, hpw, hpv, _⟩ := mul_spec ha.1 hb.1
  obtain ⟨r, hr, hrw, hrv, _⟩ := mul_spec (a := neg a) (b := b) ha.1 hb.1
  refine ⟨r, p, hr, hp, ?_⟩
  have hnp : WellFormed (neg p) :=
    wellFormed_of_value_ne_zero hpw.1 (by rw [value_neg, hpv]; exact neg_ne_zero.mpr h0)
  rw [eq_iff]
  apply wellFormed_eq_of_value_eq hrw hnp
  rw [hrv, value_neg, value_neg, hpv]
  ring

/-- C21: for `a = 0` and `b = 5` the product `(-a) * b` is the normalised
zero while `-(a * b)` is the digit `0` with the sign flag set, and
`operator==` does not equate them; the same happens for `a = 5`, `b = 0`. -/
theorem mul_neg_zero_product :
    WellFormed ⟨[0], false⟩ ∧ WellFormed ⟨[5], false⟩ ∧
    mul (neg ⟨[0], false⟩) ⟨[5], false⟩ = some ⟨[0], false⟩ ∧
    (mul ⟨[0], false⟩ ⟨[5], false⟩).map neg = some ⟨[0], true⟩ ∧
    eq ⟨[0], false⟩ ⟨[0], true⟩ = false ∧
    mul (neg ⟨[5], false⟩) ⟨[0], false⟩ = some ⟨[0], false⟩ ∧
    (mul ⟨[5], false⟩ ⟨[0], false⟩).map neg = some ⟨[0], true⟩ := by
  refine ⟨by decide, by decide, by decide, by decide, by decide, by decide, by decide⟩

/-! ## Trichotomy of the order -/

theorem ltDigits_trichotomy (neg : Bool) : ∀ (xs ys : List Int), xs.length = ys.length →
    (ltDigits neg xs ys = true ∧ xs ≠ ys ∧ ltDigits neg ys xs = false) ∨
    (ltDigits neg xs ys = false ∧ xs = ys ∧ ltDigits neg ys xs = false) ∨
    (ltDigits neg xs ys = false ∧ xs ≠ ys ∧ ltDigits neg ys xs = true) := by
  intro xs
  induction xs with
  | nil =>
    intro ys hl
    have : ys = [] := List.length_eq_zero.mp hl.symm
    subst this
    right; left
    exact ⟨rfl, rfl, rfl⟩
  | cons x xs ih =>
    intro ys hl
    match ys, hl with
    | y :: ys, hl =>
      by_cases hxy : x = y
      · subst hxy
        simp only [ltDigits, ne_eq, not_true_eq_false, if_false, List.cons.injEq, true_and]
        exact ih ys (by simpa using hl)
      · have hyx : y ≠ x := fun h => hxy h.symm
        simp only [ltDigits, ne_eq, hxy, hyx, not_false_eq_true, if_true, List.cons.injEq,
          false_and]
        rcases lt_or_gt_of_ne hxy with h | h
        · cases neg
          · left; simp [h, le_of_lt h]
          · right; right; simp [h, le_of_lt h]
        · cases neg
          · right; right; simp [h, le_of_lt h]
          · left; simp [h, le_of_lt h]

/-- C22: for all values `a` and `b` of the class, well-formed or not,
exactly one of `a < b`, `a == b` and `a > b` holds. -/
theorem ordering_trichotomy (a b : BigNumber) :
    (lt a b = true ∧ eq a b = false ∧ gt a b = false) ∨
    (lt a b = false ∧ eq a b = true ∧ gt a b = false) ∨
    (lt a b = false ∧ eq a b = false ∧ gt a b = true) := by
  obtain ⟨da, sa⟩ := a
  obtain ⟨db, sb⟩ := b
  by_cases hs : sa = sb
  · subst hs
    by_cases hl : da.length = db.length
    · have h1 : lt ⟨da, sa⟩ ⟨db, sa⟩ = ltDigits sa da.reverse db.reverse := by
        unfold lt
        rw [if_neg (by simp), if_neg (by simpa using hl)]
      have h2 : gt ⟨da, sa⟩ ⟨db, sa⟩ = ltDigits sa db.reverse da.reverse := by
        unfold gt lt
        rw [if_neg (by simp), if_neg (by simpa using hl.symm)]
      have h3 : eq ⟨da, sa⟩ ⟨db, sa⟩ = decide (da.reverse = db.reverse) := by
        simp [eq]
      rw [h1, h2, h3]
      rcases ltDigits_trichotomy sa da.reverse db.reverse (by simpa using hl) with h | h | h
      · left; exact ⟨h.1, by simpa using h.2.1, h.2.2⟩
      · right; left; exact ⟨h.1, by simpa using h.2.1, h.2.2⟩
      · right; right; exact ⟨h.1, by simpa using h.2.1, h.2.2⟩
    · have hne : da ≠ db := fun h => hl (by rw [h])
      have h1 : lt ⟨da, sa⟩ ⟨db, sa⟩ =
          if sa then decide (da.length > db.length) else decide (da.length < db.length) := by
        unfold lt
        rw [if_neg (by simp), if_pos (by simpa using hl)]
      have h2 : gt ⟨da, sa⟩ ⟨db, sa⟩ =
          if sa then decide (db.length > da.length) else decide (db.length < da.length) := by
        unfold gt lt
        rw [if_neg (by simp), if_pos (by simpa using fun h => hl h.symm)]
      have h3 : eq ⟨da, sa⟩ ⟨db, sa⟩ = false := by simp [eq, hne]
      rw [h1, h2, h3]
      rcases Nat.lt_or_gt_of_ne hl with h | h
      · cases sa
        · left; simp [h, Nat.le_of_lt h]
        · right; right; simp [h, Nat.le_of_lt h]
      · cases sa
        · right; right; simp [h, Nat.le_of_lt h]
        · left; simp [h, Nat.le_of_lt h]
  · have h1 : lt ⟨da, sa⟩ ⟨db, sb⟩ = sa := by
      unfold lt
      rw [if_pos (by simpa using hs)]
    have h2 : gt ⟨da, sa⟩ ⟨db, sb⟩ = sb := by
      unfold gt lt
      rw [if_pos (by simpa using fun h => hs h.symm)]
    have h3 : eq ⟨da, sa⟩ ⟨db, sb⟩ = false := by simp [eq, hs]
    rw [h1, h2, h3]
    cases sa <;> cases sb <;> simp_all

/-! ## Structural equality and normalisation -/

/-- C23: on well-formed values the representation is canonical, so
`operator==` (same digit list and same sign flag) holds exactly when the two
values denote the same integer. -/
theorem eq_iff_value_eq (a b : BigNumber) (ha : WellFormed a) (hb : WellFormed b) :
    eq a b = true ↔ value a = value b := by
  rw [eq_iff]
  constructor
  · intro h; rw [h]
  · exact wellFormed_eq_of_value_eq ha hb

/-- Witness for C23 at `-120` and `-120`. -/
theorem eq_iff_value_eq_witness :
    WellFormed ⟨[0, 2, 1], true⟩ ∧
    (eq ⟨[0, 2, 1], true⟩ ⟨[0, 2, 1], true⟩ = true ↔
      value ⟨[0, 2, 1], true⟩ = value ⟨[0, 2, 1], true⟩) :=
  ⟨by decide, eq_iff_value_eq ⟨[0, 2, 1], true⟩ ⟨[0, 2, 1], true⟩ (by decide) (by decide)⟩

/-- C25: `trimLeadingZeros` normalises without changing the value.  On a
non-empty digit list with digits in `0..9` and any sign flag, the result
denotes the same integer, has well-formed digits (at least one digit, no
most significant zero unless it is the single digit `0`), has the sign flag
false when the value is zero and unchanged otherwise; and trimming twice
is trimming once. -/
theorem trimLeadingZeros_normalises (x : BigNumber) (hne : x.number_digits ≠ [])
    (hr : InRange x.number_digits) :
    value (trimLeadingZeros x) = value x ∧
    DigitsOK (trimLeadingZeros x).number_digits ∧
    (trimLeadingZeros x).number_digits.length ≥ 1 ∧
    (trimLeadingZeros x).isNegative = (if value x = 0 then false else x.isNegative) ∧
    trimLeadingZeros (trimLeadingZeros x) = trimLeadingZeros x := by
  have hwf := wellFormed_trim hne hr
  have hv := value_trim x
  refine ⟨hv, hwf.1, List.length_pos.mpr hwf.1.1, ?_, trim_id hwf⟩
  rw [trim_sign]
  by_cases h0 : (trimLeadingZeros x).number_digits = [0]
  · have : value x = 0 := by
      rw [← hv]; unfold value; rw [h0]; simp [digitsVal]
    rw [if_pos h0, if_pos this]
  · have : value x ≠ 0 := by
      rw [← hv]
      intro hz
      apply h0
      apply digitsVal_eq_zero hwf.1
      unfold value at hz
      split at hz <;> omega
    rw [if_neg h0, if_neg this]

/-- Witness for C25 at the digits of `-0120` and of `-000`. -/
theorem trimLeadingZeros_normalises_witness :
    ((⟨[0, 2, 1, 0], true⟩ : BigNumber).number_digits ≠ [] ∧ InRange [0, 2, 1, 0] ∧
      trimLeadingZeros ⟨[0, 2, 1, 0], true⟩ = ⟨[0, 2, 1], true⟩ ∧
      trimLeadingZeros ⟨[0, 0, 0], true⟩ = ⟨[0], false⟩) ∧
    (value (trimLeadingZeros ⟨[0, 2, 1, 0], true⟩) = value ⟨[0, 2, 1, 0], true⟩ ∧
    DigitsOK (trimLeadingZeros ⟨[0, 2, 1, 0], true⟩).number_digits ∧
    (trimLeadingZeros ⟨[0, 2, 1, 0], true⟩).number_digits.length ≥ 1 ∧
    (trimLeadingZeros ⟨[0, 2, 1, 0], true⟩).isNegative =
      (if value ⟨[0, 2, 1, 0], true⟩ = 0 then false
        else (⟨[0, 2, 1, 0], true⟩ : BigNumber).isNegative) ∧
    trimLeadingZeros (trimLeadingZeros ⟨[0, 2, 1, 0], true⟩) =
      trimLeadingZeros ⟨[0, 2, 1, 0], true⟩) :=
  ⟨⟨by decide, by decide, by decide, by decide⟩,
    trimLeadingZeros_normalises ⟨[0, 2, 1, 0], true⟩ (by decide) (by decide)⟩

/-! ## Termination of the modular inverse -/

theorem divide_zero_divisor (a : BigNumber) :
    divide a ⟨[0], false⟩ = some (⟨[0], false⟩, ⟨[0], false⟩) := by
  unfold divide
  have hz : (ofString ['0']).toOption = some ⟨[0], false⟩ := rfl
  rw [hz]
  simp [eq]

theorem div_mod_total {a m : BigNumber} (ha : WellFormed a) (hm : WellFormed m)
    (ha0 : 0 ≤ value a) :
    ∃ q r, div a m = some q ∧ mod a m = some r ∧ WellFormed q ∧ WellFormed r ∧
      (m.number_digits ≠ [0] → digitsVal r.number_digits < digitsVal m.number_digits) := by
  by_cases hmz : m.number_digits = [0]
  · have hme : m = ⟨[0], false⟩ := by
      have := hm.2 hmz
      cases m; simp_all
    subst hme
    refine ⟨⟨[0], false⟩, ⟨[0], false⟩, by simp [div, divide_zero_divisor],
      by simp [mod, divide_zero_divisor], by decide, by decide, fun h => absurd rfl h⟩
  · have has : a.isNegative = false := by
      by_contra h
      have := ha.neg_iff.mp (by simpa using h)
      omega
    have hpos := digitsVal_pos hm.1 hmz
    obtain ⟨q, r, hdiv, hqw, hrw, _, _, hrv, _⟩ := divide_spec ha.1 has hm.1 hpos
    refine ⟨q, r, by simp [div, hdiv], by simp [mod, hdiv], hqw, hrw, fun _ => ?_⟩
    rw [hrv]
    exact Int.emod_lt_of_pos _ hpos

theorem modInverseLoop_terminates {m0 : BigNumber} (hm0 : DigitsOK m0.number_digits) :
    ∀ (fuel : Nat) (a m x0 x1 : BigNumber),
    WellFormed a → WellFormed m → DigitsOK x0.number_digits → DigitsOK x1.number_digits →
    1 ≤ fuel →
    (gt a ⟨[1], false⟩ = true → digitsVal m.number_digits + 2 ≤ (fuel : Int)) →
    ∃ r, modInverseLoop m0 fuel a m x0 x1 = some r := by
  intro fuel
  induction fuel with
  | zero => intro a m x0 x1 _ _ _ _ h1; omega
  | succ fuel ih =>
    intro a m x0 x1 ha hm hx0 hx1 _ hfuel
    have hone : ofLongLong 1 = some ⟨[1], false⟩ := by decide
    have hzero : ofLongLong 0 = some ⟨[0], false⟩ := by decide
    rw [modInverseLoop]
    simp only [hone, hzero, Option.some_bind]
    by_cases hg : gt a ⟨[1], false⟩ = true
    · rw [if_pos hg]
      have hfu := hfuel hg
      have hva : 1 < value a := by
        unfold gt at hg
        have := (lt_iff (by decide) ha).mp hg
        simpa [value, digitsVal] using this
      obtain ⟨q, r, hq, hr, hqw, hrw, hrlt⟩ := div_mod_total ha hm (by omega)
      obtain ⟨p, hp, hpw, _, _⟩ := mul_spec hqw.1 hx0
      obtain ⟨x0n, hx0n, hx0nd, _⟩ := sub_spec hx1 hpw.1
      simp only [hq, hr, hp, hx0n, Option.some_bind]
      have hmn := digitsVal_nonneg hm.1.2.1
      apply ih m r x0n x0 hm hrw hx0nd hx0
      · omega
      · intro hg2
        have hmz : m.number_digits ≠ [0] := by
          intro h0
          have hme : m = ⟨[0], false⟩ := by
            have := hm.2 h0
            cases m; simp_all
          rw [hme] at hg2
          exact absurd hg2 (by decide)
        have := hrlt hmz
        omega
    · rw [if_neg hg]
      by_cases hl : lt x1 ⟨[0], false⟩ = true
      · rw [if_pos hl]
        obtain ⟨r, hr, _, _⟩ := add_spec hx1 hm0
        exact ⟨r, hr⟩
      · rw [if_neg hl]
        exact ⟨x1, rfl⟩

/-- C24: `modInverse` terminates on every pair of well-formed inputs: with
an iteration budget of the magnitude of the modulus plus two the loop
`while (a > 1)` has ended and a value is returned.  This covers operands
that are not coprime (`4` and `6`), the modulus `0`, where `divide` returns
`(0, 0)` and the next `a` is `0`, and a negative modulus. -/
theorem modInverse_terminates (a m : BigNumber) (fuel : Nat) (ha : WellFormed a)
    (hm : WellFormed m) (hfuel : digitsVal m.number_digits + 2 ≤ (fuel : Int)) :
    (∃ r, modInverse fuel a m = some r) ∧
    modInverse 8 ⟨[4], false⟩ ⟨[6], false⟩ = some ⟨[3], false⟩ ∧
    modInverse 2 ⟨[5], false⟩ ⟨[0], false⟩ = some ⟨[0], false⟩ ∧
    modInverse 5 ⟨[5], false⟩ ⟨[3], true⟩ = some ⟨[0], false⟩ := by
  refine ⟨?_, by decide, by decide, by decide⟩
  have hone : ofLongLong 1 = some ⟨[1], false⟩ := by decide
  have hzero : ofLongLong 0 = some ⟨[0], false⟩ := by decide
  have hmn := digitsVal_nonneg hm.1.2.1
  unfold modInverse
  simp only [hone, hzero, Option.some_bind]
  by_cases he : eq m ⟨[1], false⟩ = true
  · rw [if_pos he]
    exact ⟨_, rfl⟩
  · rw [if_neg he]
    exact modInverseLoop_terminates hm.1 fuel a m ⟨[0], false⟩ ⟨[1], false⟩ ha hm
      (by decide) (by decide) (by omega) (fun _ => hfuel)

/-- Witness for C24 at `a = 12`, `m = -18`. -/
theorem modInverse_terminates_witness :
    WellFormed ⟨[2, 1], false⟩ ∧ WellFormed ⟨[8, 1], true⟩ ∧
    ((∃ r, modInverse 20 ⟨[2, 1], false⟩ ⟨[8, 1], true⟩ = some r) ∧
    modInverse 8 ⟨[4], false⟩ ⟨[6], false⟩ = some ⟨[3], false⟩ ∧
    modInverse 2 ⟨[5], false⟩ ⟨[0], false⟩ = some ⟨[0], false⟩ ∧
    modInverse 5 ⟨[5], false⟩ ⟨[3], true⟩ = some ⟨[0], false⟩) :=
  ⟨by decide, by decide,
    modInverse_terminates ⟨[2, 1], false⟩ ⟨[8, 1], true⟩ 20 (by decide) (by decide)
      (by decide)⟩

/-! ## The result buffer of multiplication -/

theorem carryLoopObserved_erase : ∀ (fuel : Nat) (product : Int) (position : Nat)
    (digits : List Int),
    (carryLoopObserved fuel product position digits).map Prod.fst =
      carryLoop fuel product position digits := by
  intro fuel
  induction fuel with
  | zero => intro product position digits; rfl
  | succ fuel ih =>
    intro product position digits
    rw [carryLoopObserved, carryLoop]
    by_cases hpos : product > 0
    · simp only [if_pos hpos, Option.map_map]
      rw [← ih]
      rfl
    · simp only [if_neg hpos, Option.map_some']

theorem mulInnerObserved_erase (x : Int) (i : Nat) : ∀ (ys : List Int) (j : Nat)
    (digits : List Int),
    (mulInnerObserved x i ys j digits).map Prod.fst = mulInner x i ys j digits := by
  intro ys
  induction ys with
  | nil => intro j digits; rfl
  | cons y ys ih =>
    intro j digits
    rw [mulInnerObserved, mulInner, ← carryLoopObserved_erase]
    cases carryLoopObserved (digits.length - (i + j) + 11) (x * y) (i + j) digits with
    | none => rfl
    | some r =>
      simp only [Option.some_bind, Option.map_some', Option.map_map]
      rw [← ih]
      rfl

theorem mulOuterObserved_erase (bs : List Int) : ∀ (xs : List Int) (i : Nat)
    (digits : List Int),
    (mulOuterObserved bs xs i digits).map Prod.fst = mulOuter bs xs i digits := by
  intro xs
  induction xs with
  | nil => intro i digits; rfl
  | cons x xs ih =>
    intro i digits
    rw [mulOuterObserved, mulOuter, ← mulInnerObserved_erase]
    cases mulInnerObserved x i bs 0 digits with
    | none => rfl
    | some r =>
      simp only [Option.some_bind, Option.map_some', Option.map_map]
      rw [← ih]
      rfl

theorem carryLoopObserved_flag : ∀ (fuel : Nat) (product : Int) (position : Nat)
    (digits : List Int),
    InRange digits → 0 ≤ product → product ≤ 81 →
    digitsVal digits + 10 ^ position * product < 10 ^ digits.length →
    carryLoopObserved fuel product position digits =
      (carryLoop fuel product position digits).map (fun ds => (ds, true)) := by
  intro fuel
  induction fuel with
  | zero => intro product position digits _ _ _ _; rfl
  | succ fuel ih =>
    intro product position digits hr hp0 hp81 hov
    rw [carryLoopObserved, carryLoop]
    by_cases hpos : product > 0
    · simp only [if_pos hpos]
      have hnn := digitsVal_nonneg hr
      have hplt : position < digits.length := by
        by_contra hge
        have h1 : (10 : Int) ^ digits.length ≤ 10 ^ position :=
          pow_le_pow_right₀ (by norm_num) (by omega)
        have h2 : (10 : Int) ^ position * 1 ≤ 10 ^ position * product :=
          mul_le_mul_of_nonneg_left (by omega) (by positivity)
        omega
      have hne : position ≠ digits.length := by omega
      simp only [if_neg hne]
      have hd := inRange_getD hr position
      have hs0 : 0 ≤ product + digits.getD position 0 := by omega
      rw [tdiv_ten hs0, tmod_ten hs0]
      have hval := digitsVal_set digits position ((product + digits.getD position 0) % 10) hplt
      have hkey : digitsVal (digits.set position ((product + digits.getD position 0) % 10)) +
          10 ^ (position + 1) * ((product + digits.getD position 0) / 10) =
          digitsVal digits + 10 ^ position * product := by
        rw [hval, pow_succ]
        have := Int.emod_add_ediv (product + digits.getD position 0) 10
        linear_combination (10 : Int) ^ position * this
      rw [ih ((product + digits.getD position 0) / 10)
        (position + 1) (digits.set position ((product + digits.getD position 0) % 10))
        (inRange_set hr position (by omega)) (by omega) (by omega)
        (by rw [hkey, List.length_set]; exact hov)]
      have hok : (decide (position < digits.length) && decide (product ≤ 90) &&
          decide (product + digits.getD position 0 ≤ 90) &&
          decide (0 ≤ (product + digits.getD position 0) % 10 ∧
            (product + digits.getD position 0) % 10 ≤ 9)) = true := by
        simp only [Bool.and_eq_true, decide_eq_true_eq]
        omega
      simp only [hok, Option.map_map]
      rfl
    · simp only [if_neg hpos, Option.map_some']

theorem mulInnerObserved_flag (x : Int) (i : Nat) (hx : 0 ≤ x ∧ x ≤ 9) :
    ∀ (ys : List Int) (j : Nat) (digits : List Int), InRange ys → InRange digits →
    digitsVal digits + 10 ^ (i + j) * (x * digitsVal ys) < 10 ^ digits.length →
    mulInnerObserved x i ys j digits =
      (mulInner x i ys j digits).map (fun ds => (ds, true)) := by
  intro ys
  induction ys with
  | nil => intro j digits _ _ _; rfl
  | cons y ys ih =>
    intro j digits hys hr hov
    have hy := hys.head
    have hvy := digitsVal_nonneg hys.tail
    have hxy0 : 0 ≤ x * y := mul_nonneg hx.1 hy.1
    have hxy81 : x * y ≤ 81 := by nlinarith
    have hsplit : (10 : Int) ^ (i + j) * (x * digitsVal (y :: ys)) =
        10 ^ (i + j) * (x * y) + 10 ^ (i + (j + 1)) * (x * digitsVal ys) := by
      simp only [digitsVal, ← add_assoc, pow_succ]
      ring
    have hrest : 0 ≤ (10 : Int) ^ (i + (j + 1)) * (x * digitsVal ys) :=
      mul_nonneg (by positivity) (mul_nonneg hx.1 hvy)
    rw [hsplit] at hov
    obtain ⟨d1, hd1, hr1, hl1, hv1⟩ := carryLoop_spec (digits.length - (i + j) + 11) (x * y)
      (i + j) digits hr hxy0 hxy81 (by omega) (by omega)
    rw [mulInnerObserved, mulInner,
      carryLoopObserved_flag _ _ _ _ hr hxy0 hxy81 (by omega), hd1]
    simp only [Option.map_some', Option.some_bind]
    rw [ih (j + 1) d1 hys.tail hr1 (by rw [hv1, hl1]; omega)]
    simp only [Option.map_map]
    rfl

theorem mulOuterObserved_flag (bs : List Int) (hbs : InRange bs) :
    ∀ (xs : List Int) (i : Nat) (digits : List Int), InRange xs → InRange digits →
    digitsVal digits + 10 ^ i * (digitsVal xs * digitsVal bs) < 10 ^ digits.length →
    mulOuterObserved bs xs i digits =
      (mulOuter bs xs i digits).map (fun ds => (ds, true)) := by
  intro xs
  induction xs with
  | nil => intro i digits _ _ _; rfl
  | cons x xs ih =>
    intro i digits hxs hr hov
    have hx := hxs.head
    have hvx := digitsVal_nonneg hxs.tail
    have hvb := digitsVal_nonneg hbs
    have hsplit : (10 : Int) ^ i * (digitsVal (x :: xs) * digitsVal bs) =
        10 ^ (i + 0) * (x * digitsVal bs) + 10 ^ (i + 1) * (digitsVal xs * digitsVal bs) := by
      simp only [digitsVal, pow_succ, add_zero]
      ring
    have hrest : 0 ≤ (10 : Int) ^ (i + 1) * (digitsVal xs * digitsVal bs) :=
      mul_nonneg (by positivity) (mul_nonneg hvx hvb)
    rw [hsplit] at hov
    obtain ⟨d1, hd1, hr1, hl1, hv1⟩ := mulInner_spec x i hx bs 0 digits hbs hr (by omega)
    rw [mulOuterObserved, mulOuter, mulInnerObserved_flag x i hx bs 0 digits hbs hr (by omega),
      hd1]
    simp only [Option.map_some', Option.some_bind]
    rw [ih (i + 1) d1 hxs.tail hr1 (by rw [hv1, hl1]; omega)]
    simp only [Option.map_map]
    rfl

theorem mulObserved_flag_false_on_ill_formed :
    mulObserved ⟨[50], false⟩ ⟨[50], false⟩ = some ([0, 0, 5, 2], false) ∧
    mulObserved ⟨[9, 9], false⟩ ⟨[99], false⟩ = some ([1, 0, 8, 9], false) := by
  refine ⟨by decide, by decide⟩

/-- C26: for well-formed operands the result buffer of `operator*`, sized to
`len(a) + len(b)` digits, is never extended.  Every carry loop ends with all
its observations true: whenever it ran with `product > 0` the write position
was inside the vector, so `push_back` was not reached, `product` was at most
`90`, and the digit stored was in `0..9`; the vector keeps its length and
its digits in `0..9`, and it is the vector `operator*` trims and returns. -/
theorem mul_buffer_never_extended (a b : BigNumber) (ha : WellFormed a) (hb : WellFormed b) :
    ∃ ds, mulObserved a b = some (ds, true) ∧
      ds.length = a.number_digits.length + b.number_digits.length ∧ InRange ds ∧
      mul a b = some (trimLeadingZeros ⟨ds, a.isNegative != b.isNegative⟩) := by
  obtain ⟨ds, hds, hr, hl, _⟩ := mul_digits ha.1.2.1 hb.1.2.1
  have h1 := digitsVal_lt_pow ha.1.2.1
  have h2 := digitsVal_lt_pow hb.1.2.1
  have hlt : digitsVal a.number_digits * digitsVal b.number_digits <
      10 ^ (a.number_digits.length + b.number_digits.length) := by
    rw [pow_add]
    exact mul_lt_mul'' h1 h2 (digitsVal_nonneg ha.1.2.1) (digitsVal_nonneg hb.1.2.1)
  refine ⟨ds, ?_, hl, hr, by simp [mul, hds]⟩
  unfold mulObserved
  rw [resize_new] at hds ⊢
  rw [mulOuterObserved_flag b.number_digits hb.1.2.1 a.number_digits 0 _ ha.1.2.1
    (inRange_replicate_zero _)
    (by rw [digitsVal_replicate_zero, List.length_replicate]; simpa using hlt), hds]
  rfl

/-- Witness for C26 at `999 * 99`, where every carry runs to the top digit. -/
theorem mul_buffer_never_extended_witness :
    WellFormed ⟨[9, 9, 9], false⟩ ∧ WellFormed ⟨[9, 9], false⟩ ∧
    mulObserved ⟨[9, 9, 9], false⟩ ⟨[9, 9], false⟩ = some ([1, 0, 9, 8, 9], true) ∧
    ∃ ds, mulObserved ⟨[9, 9, 9], false⟩ ⟨[9, 9], false⟩ = some (ds, true) ∧
      ds.length = (⟨[9, 9, 9], false⟩ : BigNumber).number_digits.length +
        (⟨[9, 9], false⟩ : BigNumber).number_digits.length ∧ InRange ds ∧
      mul ⟨[9, 9, 9], false⟩ ⟨[9, 9], false⟩ =
        some (trimLeadingZeros ⟨ds, (⟨[9, 9, 9], false⟩ : BigNumber).isNegative !=
          (⟨[9, 9], false⟩ : BigNumber).isNegative⟩) :=
  ⟨by decide, by decide, by decide,
    mul_buffer_never_extended ⟨[9, 9, 9], false⟩ ⟨[9, 9], false⟩ (by decide) (by decide)⟩

end BigNumber

end BigNumberLib
